import Mathlib

/-!
Verification development for the `app` package of `lib-instance-gen-go`
(`src/app/main.go`), a project-scaffolding generator.

The embedding models:
* the filesystem as a map from paths to file contents (`World`),
* the shared settings bag (`Settings`, Go `map[string]any` restricted to the
  value shapes the code actually stores: `string`, `bool`, `[]string`),
* setup operations (`setupOp`) as functions from the app data and the world to
  an outcome that distinguishes a returned `error` from a direct `panic`,
* the pipeline runner `SetupApp` / `Generate`,
* the template renderer `generateTemplate` over an abstract template store
  (the bundled template bodies are opaque payloads; `text/template`
  parsing/execution is modelled by an outcome per template path), and
* the `go.mod` regex patcher of `WithGoVersion`: the fixed pattern
  `(?m)$\s*go \d+\.\d+(\.\d+)?\s*$` is compiled by hand into a deterministic
  leftmost-first matcher (`matchAt`) and a `ReplaceAll` scan (`patchList`).
-/

namespace InstanceGen

/-! ## Filesystem model -/

abbrev Path := String

/-- The filesystem: a map from path to file contents. Directories are not
tracked (`os.MkdirAll` always succeeds in the model). -/
abbrev World := Path → Option String

def emptyWorld : World := fun _ => none

/-- `os.OpenFile(..., O_WRONLY|O_CREATE|O_TRUNC, ...)` followed by writes:
the path ends up mapped to the written content. -/
def setFile (w : World) (p : Path) (c : String) : World :=
  fun q => if q = p then some c else w q

/-- Apply a list of writes in order (later writes win). -/
def applyWrites (w : World) : List (Path × String) → World
  | [] => w
  | pc :: rest => applyWrites (setFile w pc.1 pc.2) rest

/-! ## Settings bag -/

/-- Values stored in the `map[string]any` settings bag by this code base:
`WithGoVersion` stores a `string`, `WithCGOEnabled` a `bool`,
`WithDependencies` a `[]string`. -/
inductive SettingVal where
  | str (s : String)
  | boolean (b : Bool)
  | strList (l : List String)
deriving DecidableEq

abbrev Settings := String → Option SettingVal

def emptySettings : Settings := fun _ => none

def Settings.insert (s : Settings) (k : String) (v : SettingVal) : Settings :=
  fun q => if q = k then some v else s q

/-! ## App data and operations -/

/-- The fields of the Go `App` struct other than the operation list. -/
structure AppData where
  binaryName : String
  dir : String
  settings : Settings

/-- Outcome of running one setup operation's deferred function.
`err` is a Go `error` returned to the caller (the pipeline runner);
`panicked` is a direct `panic` raised inside the operation (or inside
`generateTemplate`).  Both carry the world at the moment of failure. -/
inductive OpResult where
  | ok (w : World)
  | err (e : String) (w : World)
  | panicked (e : String) (w : World)

/-- `type setupOp func(App) error`.  Operations in this code base read only
the identity fields and the settings bag of the `App` they receive, never its
operation list, so the model passes `AppData`. -/
abbrev setupOp := AppData → World → OpResult

/-- Result of a whole `Generate` run: success, or a fatal process abort. -/
inductive RunResult where
  | ok (w : World)
  | fatal (e : String) (w : World)

/-- The world left on disk by a run (files persist across a fatal abort). -/
def RunResult.world : RunResult → World
  | .ok w => w
  | .fatal _ w => w

def RunResult.isOk : RunResult → Bool
  | .ok _ => true
  | .fatal _ _ => false

/-- The loop body of `Generate`: run each operation in order against the one
fixed `AppData`; `panic(err)` on the first returned error; a panic raised
inside an operation likewise aborts the run. -/
def runOps (d : AppData) : List setupOp → World → RunResult
  | [], w => .ok w
  | op :: ops, w =>
    match op d w with
    | .ok w' => runOps d ops w'
    | .err e w' => .fatal e w'
    | .panicked e w' => .fatal e w'

/-- Instrumented runner: additionally records, for every operation invocation
that actually happens, the `AppData` passed to it (in invocation order). -/
def runOpsT (d : AppData) : List setupOp → World → List AppData × RunResult
  | [], w => ([], .ok w)
  | op :: ops, w =>
    match op d w with
    | .ok w' =>
      let r := runOpsT d ops w'
      (d :: r.1, r.2)
    | .err e w' => ([d], .fatal e w')
    | .panicked e w' => ([d], .fatal e w')

/-- The Go `App` struct: identity, settings, and the stored operation list. -/
structure App extends AppData where
  ops : List setupOp

/-- `func NewApp(binaryName string, dir string) App`. -/
def NewApp (binaryName : String) (dir : String) : App :=
  { binaryName := binaryName, dir := dir, settings := emptySettings, ops := [] }

/-- `func (a App) SetupApp(ops ...setupOp) App` stores the list unchanged. -/
def App.SetupApp (a : App) (ops : List setupOp) : App :=
  { a with ops := ops }

/-- `func (a App) Generate()`. -/
def App.Generate (a : App) (w : World) : RunResult :=
  runOps a.toAppData a.ops w

theorem runOpsT_snd (d : AppData) (ops : List setupOp) (w : World) :
    (runOpsT d ops w).2 = runOps d ops w := by
  induction ops generalizing w with
  | nil => rfl
  | cons op rest ih =>
    simp only [runOpsT, runOps]
    cases op d w <;> simp [ih]

/-! ## Constants (from the `const` block of `main.go`) -/

def cgoEnabled : String := "CGOEnabled"
def codeOwnersFileName : String := "CODEOWNERS"
def dependencies : String := "dependencies"
def goModFile : String := "go.mod"
def goVersion : String := "GoVersion"
def mkfilesSubDir : String := "Makefile"
def templateBaseDir : String := "templates"
def warning : String := "lib-instance-gen-go: File auto generated -- DO NOT EDIT!!!\n"

/-- The `templateExts` map; Go map lookup yields `""` for absent keys. -/
def templateExts (k : String) : String :=
  if k = "go" then ".go.tpl"
  else if k = "mkfile" then ".tpl"
  else if k = "toml" then ".tpl"
  else if k = "yml" then ".yml.tpl"
  else ""

/-- The `warnings` map, with presence information (`WithCodeOwners` checks
the second return value of the lookup). -/
def warningsLookup (k : String) : Option String :=
  if k = codeOwnersFileName then some ("# " ++ warning)
  else if k = "go" then some ("// " ++ warning)
  else if k = "mkfile" then some ("// " ++ warning)
  else if k = "toml" then some ("# " ++ warning)
  else if k = "yml" then some ("# " ++ warning)
  else none

/-- `warnings[args.fileType]`: plain Go map indexing (zero value `""` when
the key is absent). -/
def warningsFor (k : String) : String := (warningsLookup k).getD ""

/-- `path.Join` for two components.  Go's `path.Join` additionally runs
`path.Clean`; the model joins plainly, and theorems that depend on the exact
path restrict their inputs to already-clean components (see `plainName`,
`cleanPath`), on which `path.Join` and this function agree. -/
def pathJoin (a b : String) : String :=
  if a = "" then b else if b = "" then a else a ++ "/" ++ b

/-- A path component that `path.Clean` leaves alone and that names a single
segment: nonempty, no separator, not `.` or `..`. -/
def plainName (n : String) : Prop :=
  n ≠ "" ∧ ¬ n.toList.contains '/' ∧ n ≠ "." ∧ n ≠ ".."

instance (n : String) : Decidable (plainName n) := by
  unfold plainName; infer_instance

/-- A relative path that `path.Clean` leaves alone: empty, or made of
`/`-separated segments none of which is empty, `.` or `..`. -/
def cleanPath (s : String) : Prop :=
  s = "" ∨ ∀ seg ∈ s.data.splitOn '/', seg ≠ [] ∧ seg ≠ ['.'] ∧ seg ≠ ['.', '.']

instance (s : String) : Decidable (cleanPath s) := by
  unfold cleanPath; infer_instance

/-! ## Template store and renderer -/

/-- `templateArgs` struct; all fields default to the Go zero value `""`. -/
structure templateArgs where
  BinaryName : String := ""
  BuildEnvArgs : String := ""
  ConfigName : String := ""
  Dependencies : String := ""
  GoVersion : String := ""
  Includes : String := ""
  PackageName : String := ""
deriving DecidableEq

/-- The fate of one template path under `text/template`:
* `parseFail` — `template.ParseFS` fails (missing or malformed template), so
  `template.Must` panics;
* `execFail` — parsing succeeds but `Execute` fails after emitting a partial
  output prefix (a function of the supplied arguments);
* `ok` — rendering succeeds with the given output (a function of the
  supplied arguments). -/
inductive TmplOutcome where
  | parseFail
  | execFail (outPart : templateArgs → String)
  | ok (render : templateArgs → String)

/-- The embedded template filesystem, abstracted: template bodies are opaque
payloads (and the `src/` snapshot does not ship all templates referenced by
the code), so the store maps each template path to its rendering behaviour. -/
abbrev TemplateStore := Path → TmplOutcome

def TmplOutcome.isOk : TmplOutcome → Bool
  | .ok _ => true
  | _ => false

/-- The rendered body when the outcome is `ok` (junk `""` otherwise). -/
def TmplOutcome.renderOf : TmplOutcome → templateArgs → String
  | .ok r, a => r a
  | _, _ => ""

/-- `generateTemplateArgs` struct (the Go field `templateArgs` is renamed
`tmplArgs` to avoid clashing with the type name). -/
structure generateTemplateArgs where
  fileType : String
  outputName : String
  outputSubDir : String
  templateName : String
  templateSubDir : String
  tmplArgs : templateArgs

def generateTemplateArgs.inputFileName (args : generateTemplateArgs) : Path :=
  pathJoin (pathJoin templateBaseDir args.templateSubDir) args.templateName

def generateTemplateArgs.outputFileName (args : generateTemplateArgs) : Path :=
  pathJoin args.outputSubDir args.outputName

/-- `func generateTemplate(args generateTemplateArgs)`, staged exactly as in
the source: `MkdirAll` (always succeeds in the model), open with `O_TRUNC`
(truncating any existing file), write the warning header, then
`template.Must(template.ParseFS(...))` (panics on parse failure), then
`Execute` (panics on execution failure, leaving the partial output).  All
failures are direct panics, never returned errors. -/
def generateTemplate (store : TemplateStore) (args : generateTemplateArgs)
    (w : World) : OpResult :=
  let out := args.outputFileName
  let hdr := warningsFor args.fileType
  let w2 := setFile (setFile w out "") out hdr
  match store args.inputFileName with
  | .parseFail => .panicked ("template: " ++ args.inputFileName) w2
  | .execFail p =>
    .panicked ("unable to execute template (" ++ args.inputFileName ++ ")")
      (setFile w2 out (hdr ++ p args.tmplArgs))
  | .ok r => .ok (setFile w2 out (hdr ++ r args.tmplArgs))

/-- A loop of `generateTemplate` calls, aborting at the first panic (a Go
panic unwinds the whole loop). -/
def runGenList (store : TemplateStore) : List generateTemplateArgs → World → OpResult
  | [], w => .ok w
  | a :: rest, w =>
    match generateTemplate store a w with
    | .ok w' => runGenList store rest w'
    | r => r

/-! ## The `go.mod` patcher

`WithGoVersion` runs
`regexp.MustCompile(`...`(?m)$\s*go \d+\.\d+(\.\d+)?\s*$`...`).ReplaceAll`.
Go compiles this with Perl (leftmost-first, greedy) semantics.  The pattern
is hand-compiled below into a deterministic matcher: because every quantified
class (`\s`, `\d`) is disjoint from the character that must follow it, each
greedy quantifier deterministically consumes its maximal run, except the
final `\s*$`, where backtracking picks the longest whitespace prefix whose
end sits at a line end (`greedyEol`).  Matching is over characters; the
original operates on UTF-8 bytes, which agrees on the ASCII-only
constructions involved here. -/

/-- Go regexp `\s` = `[\t\n\f\r ]`. -/
def isWsChar (c : Char) : Bool :=
  c = ' ' || c = '\t' || c = '\n' || c = '\x0c' || c = '\r'

/-- Go regexp `\d` = `[0-9]`. -/
def isDigitCh (c : Char) : Bool := '0' ≤ c && c ≤ '9'

/-- Length of the maximal whitespace run at the head. -/
def wsRun (l : List Char) : Nat := (l.takeWhile isWsChar).length

/-- Length of the maximal digit run at the head. -/
def digRun (l : List Char) : Nat := (l.takeWhile isDigitCh).length

/-- `(?m)$` matches at end of text and immediately before a `'\n'`. -/
def eolAt : List Char → Bool
  | [] => true
  | c :: _ => c = '\n'

/-- Greedy `\s*$`: the longest whitespace prefix (length `k`) such that the
position after it is a line end; `none` if no prefix works. -/
def greedyEol (l : List Char) : Option Nat :=
  (List.range (wsRun l + 1)).reverse.find? fun k => eolAt (l.drop k)

/-- The literal `go ` of the pattern. -/
def goLit : List Char := ['g', 'o', ' ']

/-- `(\.\d+)?\s*$` with the optional patch component present: `.` then a
digit run then `\s*$`.  Returns the consumed length, `none` if this branch
fails (the caller then falls back to the absent branch). -/
def matchPatch (l : List Char) : Option Nat :=
  match l with
  | [] => none
  | c :: l6 =>
    if c = '.' then
      if digRun l6 = 0 then none
      else (greedyEol (l6.drop (digRun l6))).map fun k => 1 + digRun l6 + k
    else none

/-- `\d+(\.\d+)?\s*$` (minor version onward): digit run, then the optional
patch component (preferred, per greedy `?`), else `\s*$` directly. -/
def matchVer (l : List Char) : Option Nat :=
  if digRun l = 0 then none
  else
    match matchPatch (l.drop (digRun l)) with
    | some t => some (digRun l + t)
    | none => (greedyEol (l.drop (digRun l))).map fun k => digRun l + k

/-- `\d+\.` then `matchVer`: the part after the literal `go `. -/
def matchAfterGo (l : List Char) : Option Nat :=
  if digRun l = 0 then none
  else
    match l.drop (digRun l) with
    | [] => none
    | c :: l4 =>
      if c = '.' then (matchVer l4).map fun t => digRun l + 1 + t else none

/-- Match of the whole pattern anchored at the head of `l` (a suffix of the
text); returns the matched length.  `$` then `\s*` then `go ` then the
version.  The leading `\s*` must consume its maximal run (any shorter stop
leaves a whitespace character where `g` is required). -/
def matchAt (l : List Char) : Option Nat :=
  if eolAt l then
    if (l.drop (wsRun l)).take 3 = goLit then
      (matchAfterGo ((l.drop (wsRun l)).drop 3)).map fun t => wsRun l + 3 + t
    else none
  else none

/-- The replacement text `"\n\ngo " + ver + "\n"`. -/
def replaceFor (ver : List Char) : List Char :=
  '\n' :: '\n' :: 'g' :: 'o' :: ' ' :: (ver ++ ['\n'])

/-- `ReplaceAll`: scan left to right; at each position, if the pattern
matches, emit the replacement and continue after the match, otherwise copy
one character.  Fuel-structured so the kernel can evaluate it; `patchList`
supplies sufficient fuel. -/
def patchGo (ver : List Char) : Nat → List Char → List Char
  | 0, l => l
  | _ + 1, [] => []
  | fuel + 1, c :: cs =>
    match matchAt (c :: cs) with
    | some len => replaceFor ver ++ patchGo ver fuel ((c :: cs).drop len)
    | none => c :: patchGo ver fuel cs

def patchList (ver l : List Char) : List Char := patchGo ver l.length l

/-- `pattern.ReplaceAll(data, []byte("\n\ngo "+ver+"\n"))`.  Go expands
`$`-references inside the replacement text; this model splices the
replacement literally, so it is faithful exactly when the version argument
contains no `'$'` (in particular for every digits-and-dots version).  The
claim theorems that quantify over the version restrict it accordingly. -/
def patchGoMod (data ver : String) : String := ⟨patchList ver.toList data.toList⟩

/-- The remainder left after a match: the final greedy `\s*$` stopped at a
line end and, by greediness, no strictly longer whitespace prefix of the
remainder ends at a line end. -/
def remOk (D : List Char) : Prop :=
  eolAt D = true ∧ ∀ j, 1 ≤ j → j ≤ wsRun D → eolAt (D.drop j) = false

/-! ## Setup operation constructors

Eager constructors (`WithCGOEnabled`, `WithDependencies`, `WithGoVersion`)
mutate the shared settings map at construction time, so they are modelled as
`Settings → Settings × setupOp`; the others construct a pure deferred
operation. -/

/-- `func noOp() setupOp`. -/
def noOp : setupOp := fun _ w => .ok w

/-- `func (App) WithCodeOwners(codeOwners ...string) setupOp`.  Zero entries
short-circuit to `noOp` at construction time; otherwise the deferred
function truncates/creates `CODEOWNERS`, writes its warning header and then
the entries joined by `\n`. -/
def WithCodeOwners (codeOwners : List String) : setupOp :=
  if codeOwners.isEmpty then noOp
  else fun _ w =>
    let w1 := setFile w codeOwnersFileName ""
    match warningsLookup codeOwnersFileName with
    | none =>
      .err ("unable to find a 'warnings' entry for " ++ codeOwnersFileName) w1
    | some warn =>
      let w2 := setFile w1 codeOwnersFileName warn
      .ok (setFile w2 codeOwnersFileName
        (warn ++ String.intercalate "\n" codeOwners))

/-- `func (App) WithPackages(packageNames ...string) setupOp`: one
`generateTemplate` call per package name. -/
def WithPackages (store : TemplateStore) (packageNames : List String) : setupOp :=
  fun a w =>
    runGenList store
      (packageNames.map fun name =>
        { fileType := "go"
          outputName := "config.go"
          outputSubDir := pathJoin a.dir name
          templateName := "config" ++ templateExts "go"
          templateSubDir := "package"
          tmplArgs := { PackageName := name } })
      w

/-- `func (a App) WithCGOEnabled() setupOp`: eager settings write, no-op
deferred function. -/
def WithCGOEnabled (s : Settings) : Settings × setupOp :=
  (s.insert cgoEnabled (.boolean true), noOp)

/-- `func (App) WithConfig() setupOp`. -/
def WithConfig (store : TemplateStore) : setupOp :=
  fun a w =>
    generateTemplate store
      { fileType := "go"
        outputName := "config.go"
        outputSubDir := a.dir
        templateName := "config" ++ templateExts "go"
        templateSubDir := ""
        tmplArgs := { ConfigName := a.dir } }
      w

/-- `func (a App) WithDependencies(deps ...string) setupOp`: eager settings
write, no-op deferred function. -/
def WithDependencies (deps : List String) (s : Settings) : Settings × setupOp :=
  (s.insert dependencies (.strList deps), noOp)

/-- `func (App) WithGithubWorkflows(flows ...string) setupOp`.  The deferred
function panics (not: returns an error) when the `GoVersion` setting is
absent; the `ver.(string)` type assertion likewise panics on a non-string
value.  Otherwise renders one workflow manifest per name, then the lint
configuration when `"linter"` is among the names. -/
def WithGithubWorkflows (store : TemplateStore) (flows : List String) : setupOp :=
  fun a w =>
    match a.settings goVersion with
    | none =>
      .panicked ("no " ++ goVersion ++ " provided - please call WithGoVersion") w
    | some (.str ver) =>
      match runGenList store
          (flows.map fun name =>
            { fileType := "yml"
              outputName := name ++ ".yml"
              outputSubDir := pathJoin ".github" "workflows"
              templateName := name ++ templateExts "yml"
              templateSubDir := "github_workflows"
              tmplArgs := { GoVersion := ver } })
          w with
      | .ok w' =>
        if flows.contains "linter" then
          generateTemplate store
            { fileType := "toml"
              outputName := ".golangci.toml"
              outputSubDir := ""
              templateName := ".golangci.toml"
              templateSubDir := ""
              tmplArgs := {} }
            w'
        else .ok w'
      | r => r
    | some _ =>
      .panicked "interface conversion: interface {} is not string" w

/-- `func (a App) WithGoVersion(ver string) setupOp`: eagerly records the
version in the settings bag; the deferred function patches `go.mod` in place
when it exists (`os.Stat` succeeding), and succeeds trivially otherwise. -/
def WithGoVersion (ver : String) (s : Settings) : Settings × setupOp :=
  (s.insert goVersion (.str ver),
   fun _ w =>
     match w goModFile with
     | none => .ok w
     | some data => .ok (setFile w goModFile (patchGoMod data ver)))

/-- `templatesFS.ReadDir("templates/Makefile")` on the shipped template
tree (`src/app/templates/Makefile/`). -/
def mkfileNodes : List String := ["Makefile.tpl"]

/-- `fmt.Sprintf("%sgo get -u %s@latest\n\t", depString, dep)` folded over
the recorded dependencies. -/
def depsDirectives (deps : List String) : String :=
  deps.foldl (fun acc dep => acc ++ "go get -u " ++ dep ++ "@latest\n\t") ""

/-- `fmt.Sprintf("%sinclude Makefile.%s\n", tmplArgs.Includes, ext)` folded
over the extension names. -/
def includeLines (makeExt : List String) : String :=
  makeExt.foldl (fun acc ext => acc ++ "include Makefile." ++ ext ++ "\n") ""

/-- `func (App) WithMakefile(makeExt ...string) setupOp`.  Reads the bundled
build-rule templates, shapes the value bundle from the settings bag (the
`yes.(bool)` / `deps.([]string)` type assertions panic on mistyped values),
then renders each template to the project root with the `.tpl` suffix
stripped. -/
def WithMakefile (store : TemplateStore) (makeExt : List String) : setupOp :=
  fun a w =>
    let cgoPart : Option String :=
      match a.settings cgoEnabled with
      | none => some ""
      | some (.boolean true) => some "CGO_ENABLED=1 "
      | some (.boolean false) => some ""
      | some _ => none
    let depsPart : Option String :=
      match a.settings dependencies with
      | none => some ""
      | some (.strList deps) => some (depsDirectives deps)
      | some _ => none
    match cgoPart with
    | none => .panicked "interface conversion: interface {} is not bool" w
    | some env =>
      match depsPart with
      | none => .panicked "interface conversion: interface {} is not []string" w
      | some depString =>
        runGenList store
          (mkfileNodes.map fun node =>
            { fileType := "mkfile"
              outputName := node.dropRight (templateExts "mkfile").length
              outputSubDir := ""
              templateName := node
              templateSubDir := mkfilesSubDir
              tmplArgs :=
                { BinaryName := a.binaryName
                  BuildEnvArgs := env
                  Dependencies := depString
                  Includes := includeLines makeExt } })
          w

/-! ## Whole-pipeline model

A caller writes `NewApp(bn, dir).SetupApp(app.WithX(...), ...).Generate()`.
The constructor calls are evaluated in list order before `SetupApp` runs,
each possibly mutating the shared settings map; every deferred function then
reads the (fully populated) settings through the `App` value passed to it by
`Generate`.  `OpSpec` names a constructor call with its bound arguments. -/

inductive OpSpec where
  | codeOwners (l : List String)
  | packages (l : List String)
  | cgo
  | config
  | deps (l : List String)
  | workflows (l : List String)
  | gover (v : String)
  | makefile (l : List String)
deriving DecidableEq

/-- Evaluate one constructor call: the settings after the call, and the
`setupOp` it returns. -/
def constructOp (store : TemplateStore) : OpSpec → Settings → Settings × setupOp
  | .codeOwners l, s => (s, WithCodeOwners l)
  | .packages l, s => (s, WithPackages store l)
  | .cgo, s => WithCGOEnabled s
  | .config, s => (s, WithConfig store)
  | .deps l, s => WithDependencies l s
  | .workflows l, s => (s, WithGithubWorkflows store l)
  | .gover v, s => WithGoVersion v s
  | .makefile l, s => (s, WithMakefile store l)

/-- Evaluate all constructor calls in list order. -/
def setupAll (store : TemplateStore) : List OpSpec → Settings → Settings × List setupOp
  | [], s => (s, [])
  | sp :: rest, s =>
    let c := constructOp store sp s
    let r := setupAll store rest c.1
    (r.1, c.2 :: r.2)

/-- `NewApp(bn, dir).SetupApp(constructor calls...).Generate()` against a
starting filesystem.  The Go settings map is a shared reference: mutations
made by the eager constructors are visible through the `App` value that
`Generate` later passes to every deferred function, so the `App` carries the
post-construction settings. -/
def runPipeline (store : TemplateStore) (binaryName dir : String)
    (specs : List OpSpec) (w : World) : RunResult :=
  let r := setupAll store specs emptySettings
  (({ NewApp binaryName dir with settings := r.1 }).SetupApp r.2).Generate w

/-! ## Derived definitions used by the claims -/

/-- The world left by one operation (the files persist across a panic). -/
def OpResult.world : OpResult → World
  | .ok w => w
  | .err _ w => w
  | .panicked _ w => w

def OpResult.isOk : OpResult → Bool
  | .ok _ => true
  | _ => false

/-- Does the pattern match anywhere in the text (at any suffix)? -/
def scanMatches : List Char → Bool
  | [] => false
  | c :: cs => (matchAt (c :: cs)).isSome || scanMatches cs

/-- The first line of a file body (up to the first newline). -/
def firstLine (s : String) : String := ⟨s.data.takeWhile (· ≠ '\n')⟩

/-! Template input paths as resolved by `generateTemplate` for each
operation, and the output paths each operation writes. -/

def pkgTplPath : Path :=
  pathJoin (pathJoin templateBaseDir "package") ("config" ++ templateExts "go")
def cfgTplPath : Path :=
  pathJoin (pathJoin templateBaseDir "") ("config" ++ templateExts "go")
def wfTplPath (n : String) : Path :=
  pathJoin (pathJoin templateBaseDir "github_workflows") (n ++ templateExts "yml")
def lintTplPath : Path := pathJoin (pathJoin templateBaseDir "") ".golangci.toml"
def mkTplPath : Path :=
  pathJoin (pathJoin templateBaseDir mkfilesSubDir) "Makefile.tpl"
def wfOutPath (n : String) : Path :=
  pathJoin (pathJoin ".github" "workflows") (n ++ ".yml")
def pkgOutPath (dir n : String) : Path := pathJoin (pathJoin dir n) "config.go"
def cfgOutPath (dir : String) : Path := pathJoin dir "config.go"

/-! Semantic summary of each constructor, used for the order- and
idempotence-related claims. -/

/-- The settings-bag write an eager constructor performs at construction
time (`none` for purely deferred constructors). -/
def eagerVal : OpSpec → Option (String × SettingVal)
  | .cgo => some (cgoEnabled, .boolean true)
  | .deps l => some (dependencies, .strList l)
  | .gover v => some (goVersion, .str v)
  | _ => none

def applyEager (sp : OpSpec) (s : Settings) : Settings :=
  match eagerVal sp with
  | none => s
  | some kv => s.insert kv.1 kv.2

/-- The settings bag after evaluating all constructor calls in order. -/
def buildSettings : List OpSpec → Settings → Settings
  | [], s => s
  | sp :: rest, s => buildSettings rest (applyEager sp s)

/-- The deferred operation a constructor returns (independent of the
settings value at construction time: the closures only capture their own
arguments). -/
def opOf (store : TemplateStore) : OpSpec → setupOp
  | .codeOwners l => WithCodeOwners l
  | .packages l => WithPackages store l
  | .cgo => noOp
  | .config => WithConfig store
  | .deps _ => noOp
  | .workflows l => WithGithubWorkflows store l
  | .gover v => (WithGoVersion v emptySettings).2
  | .makefile l => WithMakefile store l

def eagerKeys (sp : OpSpec) : List String :=
  match eagerVal sp with
  | none => []
  | some kv => [kv.1]

/-- Disjointness of two key or path lists. -/
def Disj (l1 l2 : List String) : Prop := ∀ x ∈ l1, x ∉ l2

instance (l1 l2 : List String) : Decidable (Disj l1 l2) := by
  unfold Disj; infer_instance

/-- The `GoVersion` string an operation reads from the settings bag
(meaningful only when `specOk` holds). -/
def goVerStrOf (d : AppData) : String :=
  match d.settings goVersion with
  | some (.str v) => v
  | _ => ""

def buildEnvOf (d : AppData) : String :=
  match d.settings cgoEnabled with
  | some (.boolean true) => "CGO_ENABLED=1 "
  | _ => ""

def depsStrOf (d : AppData) : String :=
  match d.settings dependencies with
  | some (.strList l) => depsDirectives l
  | _ => ""

def mkTmplArgsOf (d : AppData) (exts : List String) : templateArgs :=
  { BinaryName := d.binaryName
    BuildEnvArgs := buildEnvOf d
    Dependencies := depsStrOf d
    Includes := includeLines exts }

/-- Whether an operation's deferred function succeeds.  Success depends
only on the app data (settings) and the template store, never on the
filesystem. -/
def specOk (store : TemplateStore) (d : AppData) : OpSpec → Bool
  | .codeOwners _ => true
  | .packages l => l.isEmpty || (store pkgTplPath).isOk
  | .cgo => true
  | .config => (store cfgTplPath).isOk
  | .deps _ => true
  | .workflows flows =>
    (match d.settings goVersion with
     | some (.str _) => true
     | _ => false)
    && flows.all (fun n => (store (wfTplPath n)).isOk)
    && (!flows.contains "linter" || (store lintTplPath).isOk)
  | .gover _ => true
  | .makefile _ =>
    (match d.settings cgoEnabled with
     | none => true
     | some (.boolean _) => true
     | some _ => false)
    && (match d.settings dependencies with
        | none => true
        | some (.strList _) => true
        | some _ => false)
    && (store mkTplPath).isOk

/-- The file writes an operation performs when it succeeds, in order.
`gm` is the current `go.mod` content (read only by `WithGoVersion`). -/
def specWrites (store : TemplateStore) (d : AppData) (gm : Option String) :
    OpSpec → List (Path × String)
  | .codeOwners l =>
    if l.isEmpty then []
    else [(codeOwnersFileName, "# " ++ warning ++ String.intercalate "\n" l)]
  | .packages l =>
    l.map fun n =>
      (pkgOutPath d.dir n,
        "// " ++ warning ++ (store pkgTplPath).renderOf { PackageName := n })
  | .cgo => []
  | .config =>
    [(cfgOutPath d.dir,
      "// " ++ warning ++ (store cfgTplPath).renderOf { ConfigName := d.dir })]
  | .deps _ => []
  | .workflows flows =>
    (flows.map fun n =>
      (wfOutPath n,
        "# " ++ warning ++ (store (wfTplPath n)).renderOf { GoVersion := goVerStrOf d }))
    ++ (if flows.contains "linter" then
          [(".golangci.toml", "# " ++ warning ++ (store lintTplPath).renderOf {})]
        else [])
  | .gover v =>
    match gm with
    | none => []
    | some c => [(goModFile, patchGoMod c v)]
  | .makefile exts =>
    [("Makefile", "// " ++ warning ++ (store mkTplPath).renderOf (mkTmplArgsOf d exts))]

/-- The set of output paths an operation may write (independent of the
filesystem). -/
def writePaths (dir : String) : OpSpec → List Path
  | .codeOwners l => if l.isEmpty then [] else [codeOwnersFileName]
  | .packages l => l.map (pkgOutPath dir)
  | .cgo => []
  | .config => [cfgOutPath dir]
  | .deps _ => []
  | .workflows flows =>
    flows.map wfOutPath ++ (if flows.contains "linter" then [".golangci.toml"] else [])
  | .gover _ => [goModFile]
  | .makefile _ => ["Makefile"]

/-- One operation as a world transformer (its successful effect). -/
def specApply (store : TemplateStore) (d : AppData) (sp : OpSpec) (w : World) : World :=
  applyWrites w (specWrites store d (w goModFile) sp)

/-- Is this the `WithGoVersion` constructor (the only operation that reads
the filesystem)? -/
def OpSpec.isGover : OpSpec → Bool
  | .gover _ => true
  | _ => false

/-- The worlds reached by running a prefix of the operation list. -/
def runFold (store : TemplateStore) (d : AppData) (specs : List OpSpec) (w : World) :
    World :=
  specs.foldl (fun w sp => specApply store d sp w) w

/-- The `go.mod` content after an operation runs. -/
def gmNext (sp : OpSpec) (g : Option String) : Option String :=
  match sp with
  | .gover v => g.map fun c => patchGoMod c v
  | _ => g

/-- All writes of a run, flattened, threading the `go.mod` content. -/
def flatW (store : TemplateStore) (d : AppData) :
    List OpSpec → Option String → List (Path × String)
  | [], _ => []
  | sp :: rest, g => specWrites store d g sp ++ flatW store d rest (gmNext sp g)

/-- The `go.mod` content after running a list of operations. -/
def gmChain (specs : List OpSpec) (g : Option String) : Option String :=
  specs.foldl (fun g sp => gmNext sp g) g

/-! Version shapes for the idempotence claim. -/

/-- A two-component digit version `va.vb`. -/
def digits2 (va vb : List Char) : Prop :=
  va ≠ [] ∧ (∀ c ∈ va, isDigitCh c = true)
  ∧ vb ≠ [] ∧ (∀ c ∈ vb, isDigitCh c = true)

/-- A plain `major.minor` version string such as `"1.23"`. -/
def versionShaped (v : String) : Prop :=
  ∃ va vb, v.data = va ++ ('.' :: vb) ∧ digits2 va vb

/-- Decidable check for `versionShaped`. -/
def versionShapedB (v : String) : Bool :=
  decide (v.data.takeWhile isDigitCh ≠ []) &&
    match v.data.dropWhile isDigitCh with
    | c :: vb => decide (c = '.') && decide (vb ≠ []) && vb.all isDigitCh
    | [] => false

/-- Every `WithGoVersion` argument in the list is a plain version string. -/
def goversShaped (specs : List OpSpec) : Bool :=
  specs.all fun sp =>
    match sp with
    | .gover v => versionShapedB v
    | _ => true

/-! ## Basic world lemmas -/

theorem setFile_same (w : World) (p : Path) (c : String) : setFile w p c p = some c := by
  simp [setFile]

theorem setFile_other (w : World) (p q : Path) (c : String) (h : q ≠ p) :
    setFile w p c q = w q := by
  simp [setFile, h]

theorem setFile_setFile (w : World) (p : Path) (a b : String) :
    setFile (setFile w p a) p b = setFile w p b := by
  funext q
  by_cases h : q = p <;> simp [setFile, h]

theorem setFile_self (w : World) (p : Path) (c : String) (h : w p = some c) :
    setFile w p c = w := by
  funext q
  by_cases hq : q = p <;> simp [setFile, hq, h.symm]

theorem applyWrites_append (w : World) (L1 L2 : List (Path × String)) :
    applyWrites w (L1 ++ L2) = applyWrites (applyWrites w L1) L2 := by
  induction L1 generalizing w with
  | nil => rfl
  | cons pc rest ih => simp [applyWrites, ih]

/-- The value after a batch of writes: the last write at the path wins, and
paths never written keep their old value. -/
theorem applyWrites_eq (w : World) (L : List (Path × String)) (p : Path) :
    applyWrites w L p =
      match L.reverse.find? (fun pc => pc.1 = p) with
      | some pc => some pc.2
      | none => w p := by
  induction L generalizing w with
  | nil => rfl
  | cons pc rest ih =>
    simp only [applyWrites, ih, List.reverse_cons, List.find?_append]
    cases h : rest.reverse.find? (fun x => x.1 = p) with
    | some x => simp
    | none =>
      simp only [Option.none_or]
      by_cases hp : pc.1 = p
      · subst hp; simp [List.find?, setFile_same]
      · simp [List.find?, hp, setFile_other w _ p _ (fun h => hp h.symm)]

theorem applyWrites_frame (w : World) (L : List (Path × String)) (p : Path)
    (h : p ∉ L.map Prod.fst) : applyWrites w L p = w p := by
  rw [applyWrites_eq]
  cases hf : L.reverse.find? (fun pc => pc.1 = p) with
  | none => rfl
  | some pc =>
    exfalso
    have hm : pc.1 = p := by simpa using List.find?_some hf
    have hmem : pc ∈ L := List.mem_reverse.mp (List.mem_of_find?_eq_some hf)
    exact h (List.mem_map.mpr ⟨pc, hmem, hm⟩)

theorem applyWrites_nodup (w : World) (L : List (Path × String)) (p : Path) (c : String)
    (hnd : (L.map Prod.fst).Nodup) (hm : (p, c) ∈ L) : applyWrites w L p = some c := by
  induction L generalizing w with
  | nil => cases hm
  | cons pc rest ih =>
    simp only [List.map_cons, List.nodup_cons] at hnd
    rcases List.mem_cons.mp hm with h | h
    · obtain rfl := h.symm
      show applyWrites (setFile w p c) rest p = some c
      rw [applyWrites_frame _ _ _ hnd.1]
      exact setFile_same _ _ _
    · exact ih _ hnd.2 h

/-- Rerunning the same batch of writes changes nothing. -/
theorem applyWrites_absorb (w : World) (L : List (Path × String)) :
    applyWrites (applyWrites w L) L = applyWrites w L := by
  funext p
  rw [applyWrites_eq, applyWrites_eq]
  cases hf : L.reverse.find? (fun pc => pc.1 = p) with
  | some pc => rfl
  | none => simp [applyWrites_eq, hf]

/-! ## Renderer lemmas -/

theorem generateTemplate_ok (store : TemplateStore) (args : generateTemplateArgs)
    (w : World) (r : templateArgs → String)
    (h : store args.inputFileName = .ok r) :
    generateTemplate store args w =
      .ok (setFile w args.outputFileName
        (warningsFor args.fileType ++ r args.tmplArgs)) := by
  simp [generateTemplate, h, setFile_setFile]

theorem generateTemplate_ok_of_isOk (store : TemplateStore) (args : generateTemplateArgs)
    (w : World) (h : (store args.inputFileName).isOk = true) :
    generateTemplate store args w =
      .ok (setFile w args.outputFileName
        (warningsFor args.fileType ++
          (store args.inputFileName).renderOf args.tmplArgs)) := by
  cases hs : store args.inputFileName with
  | ok r => rw [generateTemplate_ok store args w r hs]; simp [TmplOutcome.renderOf, hs]
  | parseFail => simp [TmplOutcome.isOk, hs] at h
  | execFail p => simp [TmplOutcome.isOk, hs] at h

theorem runGenList_ok (store : TemplateStore) (L : List generateTemplateArgs) (w : World)
    (h : ∀ a ∈ L, (store a.inputFileName).isOk = true) :
    runGenList store L w =
      .ok (applyWrites w (L.map fun a =>
        (a.outputFileName,
          warningsFor a.fileType ++ (store a.inputFileName).renderOf a.tmplArgs))) := by
  induction L generalizing w with
  | nil => rfl
  | cons a rest ih =>
    have ha := h a (List.mem_cons_self a rest)
    simp only [runGenList, generateTemplate_ok_of_isOk store a w ha]
    rw [ih _ (fun b hb => h b (List.mem_cons_of_mem a hb))]
    rfl

/-- A failing template resolution makes `generateTemplate` panic. -/
theorem generateTemplate_notOk (store : TemplateStore) (args : generateTemplateArgs)
    (w : World) (h : (store args.inputFileName).isOk = false) :
    ∃ e w', generateTemplate store args w = .panicked e w' := by
  cases hs : store args.inputFileName with
  | ok r => simp [TmplOutcome.isOk, hs] at h
  | parseFail =>
    exact ⟨"template: " ++ args.inputFileName,
      setFile (setFile w args.outputFileName "") args.outputFileName
        (warningsFor args.fileType),
      by simp [generateTemplate, hs]⟩
  | execFail p =>
    exact ⟨"unable to execute template (" ++ args.inputFileName ++ ")",
      setFile (setFile (setFile w args.outputFileName "") args.outputFileName
        (warningsFor args.fileType)) args.outputFileName
        (warningsFor args.fileType ++ p args.tmplArgs),
      by simp [generateTemplate, hs]⟩

/-- A `generateTemplate` loop aborts (with a panic) as soon as some element's
template does not resolve cleanly. -/
theorem runGenList_fail (store : TemplateStore) (L : List generateTemplateArgs) (w : World)
    (h : ∃ a ∈ L, (store a.inputFileName).isOk = false) :
    ∃ e w', runGenList store L w = .panicked e w' := by
  induction L generalizing w with
  | nil => simp at h
  | cons a rest ih =>
    rcases h with ⟨b, hb, hfail⟩
    by_cases hok : (store a.inputFileName).isOk = true
    · cases hs : store a.inputFileName with
      | ok r =>
        have hbr : b ∈ rest := by
          rcases List.mem_cons.mp hb with rfl | hbr
          · rw [hs] at hfail; simp [TmplOutcome.isOk] at hfail
          · exact hbr
        rcases ih (setFile w a.outputFileName
            (warningsFor a.fileType ++ r a.tmplArgs)) ⟨b, hbr, hfail⟩ with ⟨e, w', hw⟩
        exact ⟨e, w', by simp [runGenList, generateTemplate_ok store a w r hs, hw]⟩
      | parseFail => rw [hs] at hok; simp [TmplOutcome.isOk] at hok
      | execFail p => rw [hs] at hok; simp [TmplOutcome.isOk] at hok
    · rcases generateTemplate_notOk store a w (by simpa using hok) with ⟨e, w', hw⟩
      exact ⟨e, w', by simp [runGenList, hw]⟩

/-! ## Patcher lemmas -/

theorem isWsChar_nl : isWsChar '\n' = true := by decide

theorem ne_nl_of_not_ws {c : Char} (h : isWsChar c = false) : c ≠ '\n' := by
  intro hc; subst hc; simp [isWsChar] at h

theorem ne_nl_of_digit {c : Char} (h : isDigitCh c = true) : c ≠ '\n' := by
  intro hc; subst hc; simp [isDigitCh] at h

theorem takeWhile_append_all {p : Char → Bool} (xs ys : List Char)
    (h : ∀ c ∈ xs, p c = true) :
    (xs ++ ys).takeWhile p = xs ++ ys.takeWhile p := by
  induction xs with
  | nil => rfl
  | cons a rest ih =>
    simp only [List.cons_append, List.takeWhile_cons, h a (by simp)]
    rw [ih (fun c hc => h c (by simp [hc]))]
    simp

/-- Length of a maximal run that stops exactly at the boundary. -/
theorem runLen {p : Char → Bool} (xs ys : List Char)
    (hall : ∀ c ∈ xs, p c = true) (hys : ys.takeWhile p = []) :
    ((xs ++ ys).takeWhile p).length = xs.length := by
  rw [takeWhile_append_all xs ys hall, hys]
  simp

theorem takeWhile_nil_of_head {p : Char → Bool} (c : Char) (cs : List Char)
    (h : p c = false) : (c :: cs).takeWhile p = [] := by
  simp [List.takeWhile_cons, h]

/-- `matchAt` fails at any position that is not a line end. -/
theorem matchAt_not_nl (c : Char) (cs : List Char) (h : c ≠ '\n') :
    matchAt (c :: cs) = none := by
  simp [matchAt, eolAt, h]

theorem matchAt_nil : matchAt ([] : List Char) = none := by decide

/-- A successful match consumes at least one character. -/
theorem matchAt_pos {l : List Char} {n : Nat} (h : matchAt l = some n) : 1 ≤ n := by
  unfold matchAt at h
  by_cases he : eolAt l = true
  · rw [if_pos he] at h
    by_cases ht : (l.drop (wsRun l)).take 3 = goLit
    · rw [if_pos ht] at h
      rcases Option.map_eq_some'.mp h with ⟨t, _, ht2⟩
      omega
    · rw [if_neg ht] at h; cases h
  · rw [if_neg he] at h; cases h

theorem patchGo_fuel (ver : List Char) :
    ∀ f1 f2 l, l.length ≤ f1 → l.length ≤ f2 →
      patchGo ver f1 l = patchGo ver f2 l := by
  intro f1
  induction f1 with
  | zero =>
    intro f2 l h1 _
    have : l = [] := List.length_eq_zero.mp (Nat.le_zero.mp h1)
    subst this
    cases f2 <;> rfl
  | succ f ih =>
    intro f2 l h1 h2
    cases l with
    | nil => cases f2 <;> rfl
    | cons c cs =>
      cases f2 with
      | zero => simp at h2
      | succ f2' =>
        cases hm : matchAt (c :: cs) with
        | none =>
          simp only [patchGo, hm]
          rw [ih f2' cs (by simpa using h1) (by simpa using h2)]
        | some len =>
          have hlen := matchAt_pos hm
          have hd : ((c :: cs).drop len).length ≤ f := by
            simp only [List.length_drop, List.length_cons] at *
            omega
          have hd2 : ((c :: cs).drop len).length ≤ f2' := by
            simp only [List.length_drop, List.length_cons] at *
            omega
          simp only [patchGo, hm]
          rw [ih f2' _ hd hd2]

theorem patchList_nil (ver : List Char) : patchList ver [] = [] := rfl

/-- The scan copies any character that is not a line-end position. -/
theorem patchList_cons_not_nl (ver : List Char) (c : Char) (cs : List Char)
    (h : c ≠ '\n') : patchList ver (c :: cs) = c :: patchList ver cs := by
  show patchGo ver (cs.length + 1) (c :: cs) = c :: patchList ver cs
  simp only [patchGo, matchAt_not_nl c cs h]
  rfl

/-- The scan copies a whole newline-free prefix. -/
theorem patchList_copy (ver A rest : List Char) (hA : ∀ c ∈ A, c ≠ '\n') :
    patchList ver (A ++ rest) = A ++ patchList ver rest := by
  induction A with
  | nil => rfl
  | cons a A' ih =>
    rw [List.cons_append, patchList_cons_not_nl ver a _ (hA a (by simp)),
      ih (fun c hc => hA c (by simp [hc]))]
    rfl

/-- A matchless text is left unchanged by `ReplaceAll`. -/
theorem scan_fix (ver l : List Char) (h : scanMatches l = false) :
    patchList ver l = l := by
  induction l with
  | nil => rfl
  | cons c cs ih =>
    simp only [scanMatches, Bool.or_eq_false_iff] at h
    have hm : matchAt (c :: cs) = none := by
      cases hmm : matchAt (c :: cs) with
      | none => rfl
      | some v => rw [hmm] at h; simp at h
    show patchGo ver (cs.length + 1) (c :: cs) = c :: cs
    simp only [patchGo, hm]
    exact congrArg (c :: ·) (ih h.2)

/-- Scanning skips a newline-free prefix without finding a match in it. -/
theorem scanMatches_copy (A rest : List Char) (hA : ∀ c ∈ A, c ≠ '\n') :
    scanMatches (A ++ rest) = scanMatches rest := by
  induction A with
  | nil => rfl
  | cons a A' ih =>
    rw [List.cons_append]
    show ((matchAt (a :: (A' ++ rest))).isSome || scanMatches (A' ++ rest))
      = scanMatches rest
    rw [matchAt_not_nl a _ (hA a (by simp)), ih (fun c hc => hA c (by simp [hc]))]
    simp

/-- The scan copies any character at which the pattern fails to match. -/
theorem patchList_cons_nomatch (ver : List Char) (c : Char) (cs : List Char)
    (h : matchAt (c :: cs) = none) :
    patchList ver (c :: cs) = c :: patchList ver cs := by
  show patchGo ver (cs.length + 1) (c :: cs) = c :: patchList ver cs
  simp only [patchGo, h]
  rfl

/-- The scan copies a whole prefix at whose every position the pattern
fails (the leftmost match starts at the end of the prefix). -/
theorem patchList_prefix (ver : List Char) (P D : List Char)
    (h : ∀ n, n < P.length → matchAt ((P ++ D).drop n) = none) :
    patchList ver (P ++ D) = P ++ patchList ver D := by
  induction P with
  | nil => rfl
  | cons a P2 ih =>
    have h0 : matchAt (a :: (P2 ++ D)) = none := by
      have := h 0 (by simp)
      simpa using this
    rw [List.cons_append, patchList_cons_nomatch ver a (P2 ++ D) h0,
      ih (fun n hn => by
        have := h (n + 1) (by simp only [List.length_cons]; omega)
        simpa using this)]
    rfl

/-! Greedy `\s*$` at the tails that occur in declaration lines. -/

theorem greedyEol_single : greedyEol ['\n'] = some 1 := by decide

theorem greedyEol_nl_nil2 : greedyEol ['\n', '\n'] = some 2 := by decide

theorem greedyEol_nl_nonws (c : Char) (cs : List Char) (hc : isWsChar c = false) :
    greedyEol ('\n' :: c :: cs) = some 0 := by
  have hcn : c ≠ '\n' := ne_nl_of_not_ws hc
  have h1 : wsRun ('\n' :: c :: cs) = 1 := by
    simp [wsRun, List.takeWhile_cons, isWsChar_nl, hc]
  unfold greedyEol
  rw [h1]
  have h2 : (List.range 2).reverse = [1, 0] := by decide
  rw [h2]
  simp [List.find?, eolAt, hcn]

theorem greedyEol_nl_nl_nonws (c : Char) (cs : List Char) (hc : isWsChar c = false) :
    greedyEol ('\n' :: '\n' :: c :: cs) = some 1 := by
  have hcn : c ≠ '\n' := ne_nl_of_not_ws hc
  have h1 : wsRun ('\n' :: '\n' :: c :: cs) = 2 := by
    simp [wsRun, List.takeWhile_cons, isWsChar_nl, hc]
  unfold greedyEol
  rw [h1]
  have h2 : (List.range 3).reverse = [2, 1, 0] := by decide
  rw [h2]
  simp [List.find?, eolAt, hcn]

theorem drop_append_plus (P T : List Char) (k : Nat) :
    (P ++ T).drop (P.length + k) = T.drop k := by
  induction P with
  | nil => simp
  | cons a P ih =>
    have hre : (a :: P).length + k = (P.length + k) + 1 := by simp; omega
    rw [List.cons_append, hre, List.drop_succ_cons, ih]

theorem patchGo_cons_match (ver : List Char) (fuel : Nat) (c : Char) (cs : List Char)
    (len : Nat) (hm : matchAt (c :: cs) = some len) :
    patchGo ver (fuel + 1) (c :: cs)
      = replaceFor ver ++ patchGo ver fuel ((c :: cs).drop len) := by
  simp only [patchGo, hm]

/-- A step of `ReplaceAll` at a matching position. -/
theorem patchList_match_step (ver l : List Char) (len : Nat)
    (h : matchAt l = some len) :
    patchList ver l = replaceFor ver ++ patchList ver (l.drop len) := by
  cases l with
  | nil => rw [matchAt_nil] at h; cases h
  | cons c cs =>
    show patchGo ver (cs.length + 1) (c :: cs) = _
    rw [patchGo_cons_match ver cs.length c cs len h]
    congr 1
    refine patchGo_fuel ver cs.length _ _ ?_ (le_refl _)
    have := matchAt_pos h
    simp only [List.length_drop, List.length_cons]
    omega

/-- The pattern at a declaration suffix: `'\n'` (the `$` position, whose
newline the leading `\s*` then consumes), optional further whitespace `mid`,
the literal `go `, a two-component digit version, and a tail `T` on which the
final `\s*$` consumes `k` characters. -/
theorem matchAt_decl (mid va vb T : List Char) (k : Nat)
    (hmid : ∀ c ∈ mid, isWsChar c = true)
    (hva : va ≠ []) (hva2 : ∀ c ∈ va, isDigitCh c = true)
    (hvb : vb ≠ []) (hvb2 : ∀ c ∈ vb, isDigitCh c = true)
    (hT : ∀ c, T.head? = some c → isDigitCh c = false ∧ c ≠ '.')
    (hk : greedyEol T = some k) :
    matchAt (('\n' :: mid) ++ (goLit ++ (va ++ (('.' :: vb) ++ T))))
      = some (mid.length + 1 + 3 + (va.length + 1 + (vb.length + k))) := by
  have hd2 : digRun (vb ++ T) = vb.length := by
    unfold digRun
    refine runLen vb T hvb2 ?_
    cases T with
    | nil => rfl
    | cons t ts => exact takeWhile_nil_of_head _ _ (hT t rfl).1
  have hd2ne : ¬ vb.length = 0 := fun h0 => hvb (List.length_eq_zero.mp h0)
  have hdropvb : (vb ++ T).drop vb.length = T := List.drop_left vb T
  have hpatch : matchPatch T = none := by
    cases T with
    | nil => rfl
    | cons t ts =>
      simp only [matchPatch]
      rw [if_neg (hT t rfl).2]
  have hMV : matchVer (vb ++ T) = some (vb.length + k) := by
    unfold matchVer
    rw [hd2, if_neg hd2ne, hdropvb, hpatch, hk]
    rfl
  have hdot : (('.' :: vb) ++ T).takeWhile isDigitCh = [] :=
    takeWhile_nil_of_head _ _ (by decide)
  have hd1 : digRun (va ++ (('.' :: vb) ++ T)) = va.length := by
    unfold digRun
    exact runLen va _ hva2 hdot
  have hd1ne : ¬ va.length = 0 := fun h0 => hva (List.length_eq_zero.mp h0)
  have hdropva : (va ++ (('.' :: vb) ++ T)).drop va.length = '.' :: (vb ++ T) := by
    rw [List.drop_left, List.cons_append]
  have hMG : matchAfterGo (va ++ (('.' :: vb) ++ T))
      = some (va.length + 1 + (vb.length + k)) := by
    unfold matchAfterGo
    rw [hd1, if_neg hd1ne, hdropva]
    dsimp only
    rw [if_pos rfl, hMV]
    rfl
  have hgws : (goLit ++ (va ++ (('.' :: vb) ++ T))).takeWhile isWsChar = [] :=
    takeWhile_nil_of_head _ _ (by decide)
  have hws : wsRun (('\n' :: mid) ++ (goLit ++ (va ++ (('.' :: vb) ++ T))))
      = mid.length + 1 := by
    unfold wsRun
    rw [runLen ('\n' :: mid) _
      (by intro c hc
          rcases List.mem_cons.mp hc with rfl | hcm
          · exact isWsChar_nl
          · exact hmid c hcm)
      hgws]
    simp
  have hdrop1 : (('\n' :: mid) ++ (goLit ++ (va ++ (('.' :: vb) ++ T)))).drop
      (mid.length + 1) = goLit ++ (va ++ (('.' :: vb) ++ T)) := by
    rw [show mid.length + 1 = ('\n' :: mid).length by simp, List.drop_left]
  have htake : (goLit ++ (va ++ (('.' :: vb) ++ T))).take 3 = goLit := by
    rw [show (3 : Nat) = goLit.length from rfl, List.take_left]
  have hdrop3 : (goLit ++ (va ++ (('.' :: vb) ++ T))).drop 3
      = va ++ (('.' :: vb) ++ T) := by
    rw [show (3 : Nat) = goLit.length from rfl, List.drop_left]
  unfold matchAt
  rw [if_pos (by rw [List.cons_append]; simp [eolAt]), hws, hdrop1, if_pos htake,
    hdrop3, hMG]
  simp only [Option.map_some']

/-- One `ReplaceAll` step at a declaration suffix: emit the normalized
replacement and continue scanning after the matched span. -/
theorem patchList_step (ver mid va vb T : List Char) (k : Nat)
    (hmid : ∀ c ∈ mid, isWsChar c = true)
    (hva : va ≠ []) (hva2 : ∀ c ∈ va, isDigitCh c = true)
    (hvb : vb ≠ []) (hvb2 : ∀ c ∈ vb, isDigitCh c = true)
    (hT : ∀ c, T.head? = some c → isDigitCh c = false ∧ c ≠ '.')
    (hk : greedyEol T = some k) :
    patchList ver (('\n' :: mid) ++ (goLit ++ (va ++ (('.' :: vb) ++ T))))
      = replaceFor ver ++ patchList ver (T.drop k) := by
  have hm := matchAt_decl mid va vb T k hmid hva hva2 hvb hvb2 hT hk
  rw [List.cons_append] at hm ⊢
  have hstep : patchList ver ('\n' :: (mid ++ (goLit ++ (va ++ (('.' :: vb) ++ T)))))
      = replaceFor ver ++ patchGo ver (mid ++ (goLit ++ (va ++ (('.' :: vb) ++ T)))).length
          (('\n' :: (mid ++ (goLit ++ (va ++ (('.' :: vb) ++ T))))).drop
            (mid.length + 1 + 3 + (va.length + 1 + (vb.length + k)))) := by
    show patchGo ver ((mid ++ (goLit ++ (va ++ (('.' :: vb) ++ T)))).length + 1)
        ('\n' :: (mid ++ (goLit ++ (va ++ (('.' :: vb) ++ T))))) = _
    exact patchGo_cons_match ver _ '\n' _ _ hm
  rw [hstep]
  have hdropP : ('\n' :: (mid ++ (goLit ++ (va ++ (('.' :: vb) ++ T))))).drop
      (mid.length + 1 + 3 + (va.length + 1 + (vb.length + k))) = T.drop k := by
    have hP : '\n' :: (mid ++ (goLit ++ (va ++ (('.' :: vb) ++ T))))
        = (('\n' :: mid) ++ goLit ++ va ++ ('.' :: vb)) ++ T := by simp
    have hPlen : (('\n' :: mid) ++ goLit ++ va ++ ('.' :: vb)).length
        = mid.length + 1 + 3 + (va.length + 1 + vb.length) := by
      simp [goLit]
      omega
    rw [hP, show mid.length + 1 + 3 + (va.length + 1 + (vb.length + k))
        = (('\n' :: mid) ++ goLit ++ va ++ ('.' :: vb)).length + k by omega,
      drop_append_plus]
  rw [hdropP]
  congr 1
  apply patchGo_fuel
  · simp only [List.length_drop]
    simp [goLit]
    omega
  · simp

/-- Full `ReplaceAll` on a manifest consisting of a newline-free prefix `A`,
whitespace `mid` after the anchoring newline, a `go <va>.<vb>` declaration,
and a remainder `B` (empty, or starting with a non-whitespace character)
containing no further match: the declaration region is replaced by the
normalized block and everything else is kept. -/
theorem patch_decl_block (ver A mid va vb B : List Char)
    (hA : ∀ c ∈ A, c ≠ '\n')
    (hmid : ∀ c ∈ mid, isWsChar c = true)
    (hva : va ≠ []) (hva2 : ∀ c ∈ va, isDigitCh c = true)
    (hvb : vb ≠ []) (hvb2 : ∀ c ∈ vb, isDigitCh c = true)
    (hB : B = [] ∨ ∃ c cs, B = c :: cs ∧ isWsChar c = false)
    (hScan : scanMatches ('\n' :: B) = false) :
    patchList ver (A ++ (('\n' :: mid) ++ (goLit ++ (va ++ (('.' :: vb) ++ ('\n' :: B))))))
      = A ++ (replaceFor ver ++ (if B.isEmpty then [] else '\n' :: B)) := by
  have hT : ∀ c, ('\n' :: B).head? = some c → isDigitCh c = false ∧ c ≠ '.' := by
    intro c hc
    simp only [List.head?] at hc
    rw [← Option.some_inj.mp hc]
    exact ⟨by decide, by decide⟩
  rw [patchList_copy ver A _ hA]
  rcases hB with rfl | ⟨c, cs, rfl, hc⟩
  · rw [patchList_step ver mid va vb ['\n'] 1 hmid hva hva2 hvb hvb2 hT greedyEol_single]
    simp [patchList_nil]
  · rw [patchList_step ver mid va vb ('\n' :: c :: cs) 0 hmid hva hva2 hvb hvb2 hT
      (greedyEol_nl_nonws c cs hc)]
    rw [List.drop_zero, scan_fix ver _ hScan]
    simp

/-- The normalized block produced by the patch, re-read as a declaration
shape (used to show a second patch maps it to itself). -/
theorem replaceFor_shape (va vb tailB : List Char) :
    replaceFor (va ++ ('.' :: vb)) ++ tailB
      = ('\n' :: ['\n']) ++ (goLit ++ (va ++ (('.' :: vb) ++ ('\n' :: tailB)))) := by
  simp [replaceFor, goLit]

/-! ## Claim C4 and C9 theorems -/

/-- `Strings` are equal when their character lists are. -/
theorem string_ext {s t : String} (h : s.data = t.data) : s = t := by
  cases s; cases t; simp only at h; rw [h]

theorem toList_eq_data (s : String) : s.toList = s.data := rfl

/-- The deferred `WithGoVersion` function, unfolded. -/
theorem withGoVersion_run (ver : String) (s : Settings) (d : AppData) (w : World) :
    (WithGoVersion ver s).2 d w
      = match w goModFile with
        | none => .ok w
        | some data => .ok (setFile w goModFile (patchGoMod data ver)) := rfl

/-! ## Claim theorems -/

/-- C6: `WithCodeOwners` with zero entries writes no ownership file and
returns no error; with entries it overwrites `CODEOWNERS` with exactly the
ownership header line followed by the entries joined by newlines (for
`["alice", "bob"]`: `"alice\nbob"`), with no template substitution. -/
theorem c6_code_owners (d : AppData) (w : World) :
    (WithCodeOwners [] d w = .ok w)
    ∧ (∀ l : List String, l ≠ [] →
        WithCodeOwners l d w
          = .ok (setFile w codeOwnersFileName
              ("# " ++ warning ++ String.intercalate "\n" l))) := by
  constructor
  · rfl
  · intro l hl
    cases l with
    | nil => exact absurd rfl hl
    | cons a as =>
      show OpResult.ok (setFile (setFile (setFile w codeOwnersFileName "")
          codeOwnersFileName ("# " ++ warning)) codeOwnersFileName
          ("# " ++ warning ++ String.intercalate "\n" (a :: as))) = _
      rw [setFile_setFile, setFile_setFile]

theorem c6_code_owners_witness :
    WithCodeOwners ["alice", "bob"] ⟨"b", "app", emptySettings⟩ emptyWorld
      = .ok (setFile emptyWorld codeOwnersFileName
          ("# " ++ warning ++ "alice\nbob")) := by
  have h := (c6_code_owners ⟨"b", "app", emptySettings⟩ emptyWorld).2
    ["alice", "bob"] (by decide)
  rw [show String.intercalate "\n" ["alice", "bob"] = "alice\nbob" from by decide] at h
  exact h

/-- C10: the renderer truncates the output file and writes the header before
parsing or executing the template, so a parse failure leaves exactly the
header on disk (any previous content destroyed) and an execution failure
leaves the header plus the partial output; both abort by panic. -/
theorem c10_renderer_not_atomic (store : TemplateStore)
    (args : generateTemplateArgs) (w : World) :
    (store args.inputFileName = .parseFail →
      generateTemplate store args w
        = .panicked ("template: " ++ args.inputFileName)
            (setFile w args.outputFileName (warningsFor args.fileType)))
    ∧ (∀ p, store args.inputFileName = .execFail p →
        generateTemplate store args w
          = .panicked ("unable to execute template (" ++ args.inputFileName ++ ")")
              (setFile w args.outputFileName
                (warningsFor args.fileType ++ p args.tmplArgs))) := by
  constructor
  · intro h
    simp [generateTemplate, h, setFile_setFile]
  · intro p h
    simp [generateTemplate, h, setFile_setFile]

theorem c10_renderer_not_atomic_witness :
    (generateTemplate (fun _ => .parseFail)
        { fileType := "go", outputName := "config.go", outputSubDir := "app",
          templateName := "config.go.tpl", templateSubDir := "package",
          tmplArgs := {} }
        (setFile emptyWorld "app/config.go" "OLD CONTENT")
      = .panicked ("template: " ++ "templates/package/config.go.tpl")
          (setFile (setFile emptyWorld "app/config.go" "OLD CONTENT")
            "app/config.go" ("// " ++ warning)))
    ∧ (generateTemplate (fun _ => .execFail fun _ => "PART")
        { fileType := "go", outputName := "config.go", outputSubDir := "app",
          templateName := "config.go.tpl", templateSubDir := "package",
          tmplArgs := {} }
        (setFile emptyWorld "app/config.go" "OLD CONTENT")
      = .panicked ("unable to execute template (" ++ "templates/package/config.go.tpl" ++ ")")
          (setFile (setFile emptyWorld "app/config.go" "OLD CONTENT")
            "app/config.go" ("// " ++ warning ++ "PART"))) := by
  constructor
  · exact (c10_renderer_not_atomic (fun _ => .parseFail) _ _).1 rfl
  · exact (c10_renderer_not_atomic (fun _ => .execFail fun _ => "PART") _ _).2 _ rfl

/-- C9: when the version-declaration pattern matches nowhere in an existing
`go.mod` — in particular when the declaration is the very first line of the
file, since the pattern requires a line end before the declaration — the
deferred `WithGoVersion` operation rewrites the same bytes and reports
success, leaving the filesystem unchanged. -/
theorem c9_first_line_declaration_unchanged (ver : String) (s : Settings) (d : AppData) :
    (∀ (c : String) (w : World), scanMatches c.data = false →
        w goModFile = some c → (WithGoVersion ver s).2 d w = .ok w)
    ∧ (∀ (c : String) (va vb B : List Char) (w : World),
        c.data = goLit ++ (va ++ (('.' :: vb) ++ ('\n' :: B))) →
        va ≠ [] → (∀ ch ∈ va, isDigitCh ch = true) →
        vb ≠ [] → (∀ ch ∈ vb, isDigitCh ch = true) →
        scanMatches ('\n' :: B) = false →
        w goModFile = some c →
        (WithGoVersion ver s).2 d w = .ok w) := by
  have main : ∀ (c : String) (w : World), scanMatches c.data = false →
      w goModFile = some c → (WithGoVersion ver s).2 d w = .ok w := by
    intro c w hscan hw
    rw [withGoVersion_run, hw]
    show OpResult.ok (setFile w goModFile (patchGoMod c ver)) = _
    have hpatch : patchGoMod c ver = c :=
      string_ext (scan_fix ver.toList c.data hscan)
    rw [hpatch, setFile_self w goModFile c hw]
  refine ⟨main, ?_⟩
  intro c va vb B w hc hva hva2 hvb hvb2 hscan hw
  refine main c w ?_ hw
  have hre : c.data = (goLit ++ (va ++ ('.' :: vb))) ++ ('\n' :: B) := by
    rw [hc]; simp
  rw [hre, scanMatches_copy]
  · exact hscan
  · intro ch hch
    simp only [goLit, List.mem_append, List.mem_cons] at hch
    rcases hch with (rfl | rfl | rfl | h) | h | rfl | h
    · decide
    · decide
    · decide
    · exact absurd h (List.not_mem_nil ch)
    · exact ne_nl_of_digit (hva2 ch h)
    · decide
    · exact ne_nl_of_digit (hvb2 ch h)

theorem c9_first_line_declaration_unchanged_witness :
    (WithGoVersion "1.23" emptySettings).2 ⟨"b", "app", emptySettings⟩
        (setFile emptyWorld goModFile "go 1.21\nmodule example.com/m\n")
      = .ok (setFile emptyWorld goModFile "go 1.21\nmodule example.com/m\n") := by
  refine (c9_first_line_declaration_unchanged "1.23" emptySettings
      ⟨"b", "app", emptySettings⟩).2
    "go 1.21\nmodule example.com/m\n" ['1'] ['2', '1']
    "module example.com/m\n".data _ (by decide) (by decide) (by decide)
    (by decide) (by decide) (by decide) (setFile_same _ _ _)

/-- C4 (amended): on an existing `go.mod` whose leftmost occurrence of the
version pattern is a line end (the pattern fails at every position inside
the prefix `P`, so the declaration is not on the very first line) followed
by optional whitespace `mid` and a `go <major>.<minor>` declaration, and
whose text after the matched region (the region extends through the longest
whitespace run `k` of the tail `T` that ends at a line end) contains no
further occurrence, the deferred `WithGoVersion` operation with a `$`-free
version argument (where `ReplaceAll`'s replacement is literal) replaces
exactly the matched region with the normalized `\n\ngo <ver>\n` block,
preserving the prefix and the remainder byte for byte; when no `go.mod`
exists it succeeds as a no-op and creates no file. -/
theorem c4_go_version_patch (ver : String) (s : Settings) (d : AppData)
    (P mid va vb T : List Char) (k : Nat) (c : String) (w : World)
    (hdollar : ∀ ch ∈ ver.data, ch ≠ '$')
    (hpre : ∀ n, n < P.length →
      matchAt ((P ++ (('\n' :: mid) ++ (goLit ++ (va ++ (('.' :: vb) ++ T))))).drop n)
        = none)
    (hmid : ∀ ch ∈ mid, isWsChar ch = true)
    (hva : va ≠ []) (hva2 : ∀ ch ∈ va, isDigitCh ch = true)
    (hvb : vb ≠ []) (hvb2 : ∀ ch ∈ vb, isDigitCh ch = true)
    (hT : ∀ ch, T.head? = some ch → isDigitCh ch = false ∧ ch ≠ '.')
    (hk : greedyEol T = some k)
    (hrest : scanMatches (T.drop k) = false)
    (hc : c.data = P ++ (('\n' :: mid) ++ (goLit ++ (va ++ (('.' :: vb) ++ T)))))
    (hw : w goModFile = some c) :
    ((WithGoVersion ver s).2 d w
        = .ok (setFile w goModFile ⟨P ++ (replaceFor ver.data ++ T.drop k)⟩))
    ∧ (∀ w2 : World, w2 goModFile = none →
        (WithGoVersion ver s).2 d w2 = .ok w2) := by
  constructor
  · rw [withGoVersion_run, hw]
    show OpResult.ok (setFile w goModFile (patchGoMod c ver)) = _
    refine congrArg OpResult.ok (congrArg (setFile w goModFile) (string_ext ?_))
    show patchList ver.toList c.data = P ++ (replaceFor ver.data ++ T.drop k)
    rw [hc, patchList_prefix ver.toList P _ hpre,
      patchList_step ver.toList mid va vb T k hmid hva hva2 hvb hvb2 hT hk,
      scan_fix ver.toList _ hrest]
    rfl
  · intro w2 hw2
    rw [withGoVersion_run, hw2]

theorem c4_go_version_patch_witness :
    ((WithGoVersion "1.23" emptySettings).2 ⟨"b", "app", emptySettings⟩
        (setFile emptyWorld goModFile "module m\n\ngo 1.21\nrequire y")
      = .ok (setFile (setFile emptyWorld goModFile "module m\n\ngo 1.21\nrequire y")
          goModFile
          ⟨"module m".data
            ++ (replaceFor "1.23".data ++ (('\n' :: "require y".data).drop 0))⟩))
    ∧ (∀ w2 : World, w2 goModFile = none →
        (WithGoVersion "1.23" emptySettings).2 ⟨"b", "app", emptySettings⟩ w2
          = .ok w2) :=
  c4_go_version_patch "1.23" emptySettings ⟨"b", "app", emptySettings⟩
    "module m".data ['\n'] ['1'] ['2', '1'] ('\n' :: "require y".data) 0
    "module m\n\ngo 1.21\nrequire y"
    (setFile emptyWorld goModFile "module m\n\ngo 1.21\nrequire y")
    (by decide) (by decide) (by decide) (by decide) (by decide) (by decide)
    (by decide)
    (fun ch hch => by
      rw [← Option.some_inj.mp hch]
      exact ⟨by decide, by decide⟩)
    (by decide) (by decide) (by decide) (setFile_same _ _ _)

/-- C4 counterexample: a `go.mod` that does contain a version-declaration
line — but as its very first line — is left completely unchanged by the
patch (while still reporting success), so the claim as stated (every
manifest containing a declaration line gets rewritten to `go 1.23`) fails. -/
theorem c4_counterexample :
    ((WithGoVersion "1.23" emptySettings).2 ⟨"b", "app", emptySettings⟩
        (setFile emptyWorld goModFile "go 1.21\nmodule example.com/m\n")).world
        goModFile = some "go 1.21\nmodule example.com/m\n"
    ∧ ((WithGoVersion "1.23" emptySettings).2 ⟨"b", "app", emptySettings⟩
        (setFile emptyWorld goModFile "go 1.21\nmodule example.com/m\n")).isOk
        = true := by
  constructor
  · decide
  · decide

/-! ## Runner lemmas and claims C1, C8 -/

theorem runOps_ok_trace (d : AppData) (ops : List setupOp) (w w1 : World)
    (h : runOps d ops w = .ok w1) :
    runOpsT d ops w = (List.replicate ops.length d, .ok w1) := by
  induction ops generalizing w with
  | nil =>
    simp only [runOps] at h
    cases h
    rfl
  | cons op rest ih =>
    simp only [runOps] at h
    cases hop : op d w with
    | ok w' =>
      rw [hop] at h
      simp only [runOpsT, hop, ih w' h]
      rfl
    | err e w' => rw [hop] at h; cases h
    | panicked e w' => rw [hop] at h; cases h

theorem runOpsT_append_ok (d : AppData) (l1 l2 : List setupOp) (w w1 : World)
    (t1 : List AppData) (h : runOpsT d l1 w = (t1, .ok w1)) :
    runOpsT d (l1 ++ l2) w
      = (t1 ++ (runOpsT d l2 w1).1, (runOpsT d l2 w1).2) := by
  induction l1 generalizing w t1 with
  | nil =>
    simp only [runOpsT] at h
    have h1 : ([] : List AppData) = t1 := congrArg Prod.fst h
    have h2 : RunResult.ok w = RunResult.ok w1 := congrArg Prod.snd h
    injection h2 with h3
    subst h3
    rw [← h1]
    simp
  | cons op rest ih =>
    cases hop : op d w with
    | ok w' =>
      simp only [runOpsT, hop] at h ⊢
      have h1 : d :: (runOpsT d rest w').1 = t1 := congrArg Prod.fst h
      have h2 : (runOpsT d rest w').2 = RunResult.ok w1 := congrArg Prod.snd h
      have hr : runOpsT d rest w' = ((runOpsT d rest w').1, .ok w1) := by
        rw [← h2]
      simp only [List.append_eq]
      rw [ih w' _ hr, ← h1]
      simp
    | err e w' =>
      simp only [runOpsT, hop] at h
      have h2 : RunResult.fatal e w' = RunResult.ok w1 := congrArg Prod.snd h
      cases h2
    | panicked e w' =>
      simp only [runOpsT, hop] at h
      have h2 : RunResult.fatal e w' = RunResult.ok w1 := congrArg Prod.snd h
      cases h2

/-- C1: `Generate` invokes each stored operation exactly once, in list
order, passing the same `App` data to each; at the first operation that
returns an error the run aborts fatally with exactly that error, and the
operations after it are never invoked (the outcome and the invocation trace
are independent of what follows the failing operation). -/
theorem c1_generate_first_error_aborts (d : AppData) (ops0 ops1 ops2 : List setupOp)
    (op : setupOp) (w w1 w2 : World) (e : String)
    (h1 : runOps d ops1 w = .ok w1) (h2 : op d w1 = .err e w2) :
    ((App.SetupApp ⟨d, ops0⟩ (ops1 ++ op :: ops2)).Generate w = .fatal e w2)
    ∧ runOpsT d (ops1 ++ op :: ops2) w
        = (List.replicate (ops1.length + 1) d, .fatal e w2)
    ∧ ∀ ops2' : List setupOp,
        runOpsT d (ops1 ++ op :: ops2') w
          = (List.replicate (ops1.length + 1) d, .fatal e w2) := by
  have key : ∀ ops2' : List setupOp,
      runOpsT d (ops1 ++ op :: ops2') w
        = (List.replicate (ops1.length + 1) d, .fatal e w2) := by
    intro ops2'
    have ht := runOps_ok_trace d ops1 w w1 h1
    rw [runOpsT_append_ok d ops1 (op :: ops2') w w1 _ ht]
    have hfail : runOpsT d (op :: ops2') w1 = ([d], .fatal e w2) := by
      simp only [runOpsT, h2]
    rw [hfail]
    simp [List.replicate_succ']
  refine ⟨?_, key ops2, key⟩
  have hgen : (App.SetupApp ⟨d, ops0⟩ (ops1 ++ op :: ops2)).Generate w
      = runOps d (ops1 ++ op :: ops2) w := rfl
  rw [hgen, ← runOpsT_snd, key ops2]

theorem c1_generate_first_error_aborts_witness :
    ((App.SetupApp ⟨⟨"b", "app", emptySettings⟩, []⟩
        [noOp, fun _ w => OpResult.err "boom" w, fun _ w => .ok (setFile w "late" "x")]).Generate
        emptyWorld = .fatal "boom" emptyWorld)
    ∧ runOpsT ⟨"b", "app", emptySettings⟩
        [noOp, fun _ w => OpResult.err "boom" w, fun _ w => .ok (setFile w "late" "x")]
        emptyWorld
        = (List.replicate 2 ⟨"b", "app", emptySettings⟩, .fatal "boom" emptyWorld)
    ∧ ∀ ops2' : List setupOp,
        runOpsT ⟨"b", "app", emptySettings⟩
          ([noOp, fun _ w => OpResult.err "boom" w] ++ ops2') emptyWorld
          = (List.replicate 2 ⟨"b", "app", emptySettings⟩, .fatal "boom" emptyWorld) := by
  have h := c1_generate_first_error_aborts ⟨"b", "app", emptySettings⟩ []
    [noOp] [fun _ w => .ok (setFile w "late" "x")]
    (fun _ w => OpResult.err "boom" w) emptyWorld emptyWorld emptyWorld "boom"
    rfl rfl
  exact ⟨h.1, h.2.1, fun ops2' => h.2.2 ops2'⟩

/-- C8 (amended): operations that detect failure themselves (missing
`warnings` entry, unreadable `go.mod`, unreadable template directory)
return an error value which `Generate` converts into the fatal abort; but
the missing-`GoVersion` check inside `WithGithubWorkflows` and every
renderer-stage failure panic directly inside the operation, so `Generate`'s
top-level handling is not the single point that aborts the process. -/
theorem c8_error_channels :
    (∀ (d : AppData) (op : setupOp) (ops : List setupOp) (w w' : World) (e : String),
        op d w = .err e w' →
        (App.SetupApp ⟨d, []⟩ (op :: ops)).Generate w = .fatal e w')
    ∧ (∀ (store : TemplateStore) (flows : List String) (d : AppData) (w : World),
        d.settings goVersion = none →
        WithGithubWorkflows store flows d w
          = .panicked ("no " ++ goVersion ++ " provided - please call WithGoVersion") w)
    ∧ (∀ (store : TemplateStore) (args : generateTemplateArgs) (w : World),
        store args.inputFileName = .parseFail →
        generateTemplate store args w
          = .panicked ("template: " ++ args.inputFileName)
              (setFile w args.outputFileName (warningsFor args.fileType))) := by
  refine ⟨?_, ?_, ?_⟩
  · intro d op ops w w' e h
    show runOps d (op :: ops) w = _
    simp only [runOps, h]
  · intro store flows d w h
    unfold WithGithubWorkflows
    rw [h]
  · intro store args w h
    simp [generateTemplate, h, setFile_setFile]

theorem c8_error_channels_witness :
    ((App.SetupApp ⟨⟨"b", "app", emptySettings⟩, []⟩
        [fun _ w => OpResult.err "boom" w]).Generate emptyWorld
      = .fatal "boom" emptyWorld)
    ∧ (WithGithubWorkflows (fun _ => .ok fun _ => "") ["test"]
        ⟨"b", "app", emptySettings⟩ emptyWorld
      = .panicked ("no " ++ goVersion ++ " provided - please call WithGoVersion")
          emptyWorld)
    ∧ (generateTemplate (fun _ => .parseFail)
        { fileType := "yml", outputName := "test.yml",
          outputSubDir := ".github/workflows", templateName := "test.yml.tpl",
          templateSubDir := "github_workflows", tmplArgs := {} } emptyWorld
      = .panicked ("template: " ++ "templates/github_workflows/test.yml.tpl")
          (setFile emptyWorld ".github/workflows/test.yml" ("# " ++ warning))) :=
  ⟨(c8_error_channels).1 ⟨"b", "app", emptySettings⟩ _ [] emptyWorld emptyWorld "boom" rfl,
   (c8_error_channels).2.1 (fun _ => .ok fun _ => "") ["test"]
     ⟨"b", "app", emptySettings⟩ emptyWorld rfl,
   (c8_error_channels).2.2 (fun _ => .parseFail) _ emptyWorld rfl⟩

/-- C8 counterexample: at a concrete input, `WithGithubWorkflows` aborts by
panicking inside the operation instead of returning an error value to the
runner, refuting the claim that every operation signals failure by an error
return. -/
theorem c8_counterexample :
    WithGithubWorkflows (fun _ => .ok fun _ => "") ["test"]
        ⟨"b", "app", emptySettings⟩ emptyWorld
      = .panicked ("no " ++ goVersion ++ " provided - please call WithGoVersion")
          emptyWorld := rfl

/-! ## String and path lemmas -/

theorem str_append_right_cancel {a b t : String} (h : a ++ t = b ++ t) : a = b := by
  have hd : a.data ++ t.data = b.data ++ t.data := by
    have := congrArg String.data h
    simpa [String.data_append] using this
  exact string_ext (List.append_cancel_right hd)

theorem str_append_left_cancel {s a b : String} (h : s ++ a = s ++ b) : a = b := by
  have hd : s.data ++ a.data = s.data ++ b.data := by
    have := congrArg String.data h
    simpa [String.data_append] using this
  exact string_ext (List.append_cancel_left hd)

theorem str_ne_empty_of_length {s : String} (h : 0 < s.length) : s ≠ "" := by
  intro he
  subst he
  simp at h

theorem append_ne_empty_right (s t : String) (h : t ≠ "") : s ++ t ≠ "" := by
  apply str_ne_empty_of_length
  have ht : 0 < t.length := by
    rcases Nat.eq_zero_or_pos t.length with h0 | h0
    · exact absurd (by cases t with | mk d => cases d with
        | nil => rfl
        | cons a l => simp [String.length] at h0) h
    · exact h0
  rw [String.length_append]
  omega

theorem pathJoin_ne (a b : String) (ha : a ≠ "") (hb : b ≠ "") :
    pathJoin a b = a ++ "/" ++ b := by
  simp [pathJoin, ha, hb]

theorem pathJoin_ne_empty (a b : String) (hb : b ≠ "") : pathJoin a b ≠ "" := by
  by_cases ha : a = ""
  · simpa [pathJoin, ha] using hb
  · rw [pathJoin_ne a b ha hb]
    exact append_ne_empty_right _ _ hb

theorem pkgOutPath_inj_on (dir n1 n2 : String) (h1 : n1 ≠ "") (h2 : n2 ≠ "")
    (h : pkgOutPath dir n1 = pkgOutPath dir n2) : n1 = n2 := by
  unfold pkgOutPath at h
  rw [pathJoin_ne _ "config.go" (pathJoin_ne_empty dir n1 h1) (by decide),
    pathJoin_ne _ "config.go" (pathJoin_ne_empty dir n2 h2) (by decide)] at h
  have hx : pathJoin dir n1 ++ "/" = pathJoin dir n2 ++ "/" :=
    str_append_right_cancel h
  have hx2 : pathJoin dir n1 = pathJoin dir n2 := str_append_right_cancel hx
  by_cases hd : dir = ""
  · simpa [pathJoin, hd] using hx2
  · rw [pathJoin_ne dir n1 hd h1, pathJoin_ne dir n2 hd h2] at hx2
    have h3 : "/" ++ n1 = "/" ++ n2 :=
      str_append_left_cancel (s := dir) (by simpa [String.append_assoc] using hx2)
    exact str_append_left_cancel h3

theorem wfOutPath_eq (n : String) :
    wfOutPath n = ".github/workflows" ++ "/" ++ (n ++ ".yml") := by
  unfold wfOutPath
  rw [show pathJoin ".github" "workflows" = ".github/workflows" from by decide,
    pathJoin_ne _ _ (by decide) (append_ne_empty_right n ".yml" (by decide))]

theorem wfOutPath_inj : Function.Injective wfOutPath := by
  intro n1 n2 h
  rw [wfOutPath_eq, wfOutPath_eq] at h
  exact str_append_right_cancel (str_append_left_cancel h)

theorem wfOutPath_ne_golangci (n : String) : wfOutPath n ≠ ".golangci.toml" := by
  intro h
  have hlen := congrArg String.length h
  rw [wfOutPath_eq, String.length_append, String.length_append,
    String.length_append,
    show (".github/workflows" : String).length = 17 from rfl,
    show ("/" : String).length = 1 from rfl,
    show (".yml" : String).length = 4 from rfl,
    show (".golangci.toml" : String).length = 14 from rfl] at hlen
  omega

theorem firstLine_header (pre body : String) (hpre : ∀ c ∈ pre.data, c ≠ '\n') :
    firstLine (pre ++ ("\n" ++ body)) = pre := by
  unfold firstLine
  apply string_ext
  show ((pre ++ ("\n" ++ body)).data.takeWhile (· ≠ '\n')) = pre.data
  rw [String.data_append, String.data_append]
  rw [show ("\n" : String).data = ['\n'] from rfl]
  rw [takeWhile_append_all pre.data _ (by intro c hc; simpa using hpre c hc)]
  simp [List.takeWhile_cons]

theorem str_append_assoc (a b c : String) : (a ++ b) ++ c = a ++ (b ++ c) :=
  string_ext (by simp [String.data_append])

/-- The warning header ends in a newline, so it is always the first line of
a generated file, whatever the rendered body is. -/
theorem firstLine_warning (body : String) :
    firstLine ("// " ++ warning ++ body)
      = "// lib-instance-gen-go: File auto generated -- DO NOT EDIT!!!" := by
  rw [show "// " ++ warning
      = "// lib-instance-gen-go: File auto generated -- DO NOT EDIT!!!" ++ "\n"
      from by decide,
    str_append_assoc]
  exact firstLine_header _ body (by decide)

/-- C5: for every list of package names, `WithPackages` writes exactly one
scaffold file `{dir}/{name}/config.go` per name; each file's content is the
source-file warning header followed by the rendered template body with that
package's name substituted, and the header is its first line.  The
`plainName`/`cleanPath` hypotheses keep the plain path-join model faithful
to Go's cleaning `path.Join`. -/
theorem c5_with_packages (store : TemplateStore) (d : AppData) (w : World)
    (names : List String)
    (hnd : names.Nodup)
    (hplain : ∀ n ∈ names, plainName n)
    (hdir : cleanPath d.dir)
    (hstore : (store pkgTplPath).isOk = true) :
    ∃ w', WithPackages store names d w = .ok w'
      ∧ (∀ n ∈ names, w' (pkgOutPath d.dir n)
          = some ("// " ++ warning
              ++ (store pkgTplPath).renderOf { PackageName := n }))
      ∧ (∀ n ∈ names, (w' (pkgOutPath d.dir n)).map firstLine
          = some "// lib-instance-gen-go: File auto generated -- DO NOT EDIT!!!")
      ∧ (∀ p, p ∉ names.map (pkgOutPath d.dir) → w' p = w p)
      ∧ (names.map (pkgOutPath d.dir)).Nodup
      ∧ (names.map (pkgOutPath d.dir)).length = names.length := by
  have hpathsnd : (names.map (pkgOutPath d.dir)).Nodup :=
    List.Nodup.map_on
      (fun x hx y hy hf =>
        pkgOutPath_inj_on d.dir x y (hplain x hx).1 (hplain y hy).1 hf)
      hnd
  have hall : ∀ a ∈ names.map (fun name =>
      ({ fileType := "go", outputName := "config.go",
         outputSubDir := pathJoin d.dir name,
         templateName := "config" ++ templateExts "go",
         templateSubDir := "package",
         tmplArgs := { PackageName := name } } : generateTemplateArgs)),
      (store a.inputFileName).isOk = true := by
    intro a ha
    rcases List.mem_map.mp ha with ⟨n, hn, rfl⟩
    exact hstore
  have hrun := runGenList_ok store _ w hall
  have hWL : ((names.map (fun name =>
      ({ fileType := "go", outputName := "config.go",
         outputSubDir := pathJoin d.dir name,
         templateName := "config" ++ templateExts "go",
         templateSubDir := "package",
         tmplArgs := { PackageName := name } } : generateTemplateArgs))).map
        fun a => (a.outputFileName,
          warningsFor a.fileType ++ (store a.inputFileName).renderOf a.tmplArgs))
      = names.map fun n => (pkgOutPath d.dir n,
          "// " ++ warning ++ (store pkgTplPath).renderOf { PackageName := n }) := by
    rw [List.map_map]
    rfl
  rw [hWL] at hrun
  have hcomp : (Prod.fst ∘ fun n => (pkgOutPath d.dir n,
      "// " ++ warning ++ (store pkgTplPath).renderOf { PackageName := n }))
      = pkgOutPath d.dir := rfl
  refine ⟨applyWrites w (names.map fun n => (pkgOutPath d.dir n,
      "// " ++ warning ++ (store pkgTplPath).renderOf { PackageName := n })),
    hrun, ?_, ?_, ?_, hpathsnd, by simp⟩
  · intro n hn
    apply applyWrites_nodup
    · rw [List.map_map, hcomp]
      exact hpathsnd
    · exact List.mem_map.mpr ⟨n, hn, rfl⟩
  · intro n hn
    have hv := applyWrites_nodup w _ (pkgOutPath d.dir n)
      ("// " ++ warning ++ (store pkgTplPath).renderOf { PackageName := n })
      (by rw [List.map_map, hcomp]; exact hpathsnd)
      (List.mem_map.mpr ⟨n, hn, rfl⟩)
    rw [hv]
    simp [firstLine_warning]
  · intro p hp
    apply applyWrites_frame
    rw [List.map_map, hcomp]
    exact hp

theorem c5_with_packages_witness :
    ∃ w', WithPackages (fun _ => .ok fun args => "package " ++ args.PackageName ++ "\n")
        ["logger", "pushover"] ⟨"b", "app", emptySettings⟩ emptyWorld = .ok w'
      ∧ (∀ n ∈ ["logger", "pushover"], w' (pkgOutPath "app" n)
          = some ("// " ++ warning
              ++ ((fun (_ : Path) => TmplOutcome.ok fun args =>
                    "package " ++ args.PackageName ++ "\n") pkgTplPath).renderOf
                  { PackageName := n }))
      ∧ (∀ n ∈ ["logger", "pushover"], (w' (pkgOutPath "app" n)).map firstLine
          = some "// lib-instance-gen-go: File auto generated -- DO NOT EDIT!!!")
      ∧ (∀ p, p ∉ ["logger", "pushover"].map (pkgOutPath "app") → w' p = emptyWorld p)
      ∧ (["logger", "pushover"].map (pkgOutPath "app")).Nodup
      ∧ (["logger", "pushover"].map (pkgOutPath "app")).length
          = (["logger", "pushover"] : List String).length :=
  c5_with_packages (fun _ => .ok fun args => "package " ++ args.PackageName ++ "\n")
    ⟨"b", "app", emptySettings⟩ emptyWorld ["logger", "pushover"]
    (by decide) (by decide) (by decide) rfl

/-- C3: running the `WithGithubWorkflows` operation without the
`GoVersion` setting fails fatally with a message naming the missing
setting; with the setting present it succeeds, writing exactly one workflow
manifest `.github/workflows/{name}.yml` per named workflow plus exactly one
`.golangci.toml` if and only if `"linter"` is among the names.  The
`plainName` hypothesis keeps the plain path-join model faithful to Go's
cleaning `path.Join`. -/
theorem c3_github_workflows (store : TemplateStore) (d : AppData) (w : World)
    (flows : List String) :
    (d.settings goVersion = none →
      WithGithubWorkflows store flows d w
        = .panicked ("no " ++ goVersion ++ " provided - please call WithGoVersion") w)
    ∧ (∀ ver : String, d.settings goVersion = some (.str ver) →
        flows.Nodup → (∀ n ∈ flows, plainName n) →
        (∀ n ∈ flows, (store (wfTplPath n)).isOk = true) →
        (flows.contains "linter" = true → (store lintTplPath).isOk = true) →
        ∃ w', WithGithubWorkflows store flows d w = .ok w'
          ∧ (∀ n ∈ flows, w' (wfOutPath n)
              = some ("# " ++ warning
                  ++ (store (wfTplPath n)).renderOf { GoVersion := ver }))
          ∧ (flows.contains "linter" = true →
              w' ".golangci.toml"
                = some ("# " ++ warning ++ (store lintTplPath).renderOf {}))
          ∧ (flows.contains "linter" = false →
              w' ".golangci.toml" = w ".golangci.toml")
          ∧ (∀ p, p ∉ flows.map wfOutPath → p ≠ ".golangci.toml" → w' p = w p)
          ∧ (flows.map wfOutPath).Nodup
          ∧ (flows.map wfOutPath).length = flows.length) := by
  constructor
  · intro h
    unfold WithGithubWorkflows
    rw [h]
  · intro ver hver hnd hplain hstores hlint
    have hpathsnd : (flows.map wfOutPath).Nodup := hnd.map wfOutPath_inj
    have hall : ∀ a ∈ flows.map (fun name =>
        ({ fileType := "yml", outputName := name ++ ".yml",
           outputSubDir := pathJoin ".github" "workflows",
           templateName := name ++ templateExts "yml",
           templateSubDir := "github_workflows",
           tmplArgs := { GoVersion := ver } } : generateTemplateArgs)),
        (store a.inputFileName).isOk = true := by
      intro a ha
      rcases List.mem_map.mp ha with ⟨n, hn, rfl⟩
      exact hstores n hn
    have hWL : ((flows.map (fun name =>
        ({ fileType := "yml", outputName := name ++ ".yml",
           outputSubDir := pathJoin ".github" "workflows",
           templateName := name ++ templateExts "yml",
           templateSubDir := "github_workflows",
           tmplArgs := { GoVersion := ver } } : generateTemplateArgs))).map
          fun a => (a.outputFileName,
            warningsFor a.fileType ++ (store a.inputFileName).renderOf a.tmplArgs))
        = flows.map fun n => (wfOutPath n,
            "# " ++ warning ++ (store (wfTplPath n)).renderOf { GoVersion := ver }) := by
      rw [List.map_map]
      rfl
    have hcomp : (Prod.fst ∘ fun n => (wfOutPath n,
        "# " ++ warning ++ (store (wfTplPath n)).renderOf { GoVersion := ver }))
        = wfOutPath := rfl
    have hrun := runGenList_ok store _ w hall
    rw [hWL] at hrun
    unfold WithGithubWorkflows
    rw [hver]
    dsimp only
    rw [hrun]
    dsimp only
    set wMid := applyWrites w (flows.map fun n => (wfOutPath n,
      "# " ++ warning ++ (store (wfTplPath n)).renderOf { GoVersion := ver }))
      with hwMid
    have hmidval : ∀ n ∈ flows, wMid (wfOutPath n)
        = some ("# " ++ warning ++ (store (wfTplPath n)).renderOf { GoVersion := ver }) := by
      intro n hn
      apply applyWrites_nodup
      · rw [List.map_map, hcomp]
        exact hpathsnd
      · exact List.mem_map.mpr ⟨n, hn, rfl⟩
    have hmidframe : ∀ p, p ∉ flows.map wfOutPath → wMid p = w p := by
      intro p hp
      apply applyWrites_frame
      rw [List.map_map, hcomp]
      exact hp
    cases hc : flows.contains "linter" with
    | true =>
      rw [if_pos rfl]
      have hlOk : (store (generateTemplateArgs.inputFileName
          { fileType := "toml", outputName := ".golangci.toml",
            outputSubDir := "", templateName := ".golangci.toml",
            templateSubDir := "", tmplArgs := {} })).isOk = true :=
        hlint hc
      rw [generateTemplate_ok_of_isOk store _ wMid hlOk]
      dsimp only
      have houtp : (generateTemplateArgs.outputFileName
          { fileType := "toml", outputName := ".golangci.toml",
            outputSubDir := "", templateName := ".golangci.toml",
            templateSubDir := "", tmplArgs := {} }) = ".golangci.toml" := rfl
      have hinp : (generateTemplateArgs.inputFileName
          { fileType := "toml", outputName := ".golangci.toml",
            outputSubDir := "", templateName := ".golangci.toml",
            templateSubDir := "", tmplArgs := {} }) = lintTplPath := rfl
      rw [houtp, hinp]
      refine ⟨_, rfl, ?_, ?_, ?_, ?_, hpathsnd, by simp⟩
      · intro n hn
        rw [setFile_other _ _ _ _ (wfOutPath_ne_golangci n)]
        exact hmidval n hn
      · intro _
        exact setFile_same _ _ _
      · intro hfalse
        cases hfalse
      · intro p hp hpg
        rw [setFile_other _ _ _ _ hpg]
        exact hmidframe p hp
    | false =>
      simp only [Bool.false_eq_true, if_false]
      refine ⟨wMid, rfl, hmidval, ?_, ?_, ?_, hpathsnd, by simp⟩
      · intro hfalse
        cases hfalse
      · intro _
        apply hmidframe
        intro hmem
        rcases List.mem_map.mp hmem with ⟨n, _, hn⟩
        exact wfOutPath_ne_golangci n hn
      · intro p hp _
        exact hmidframe p hp

theorem c3_github_workflows_witness :
    (WithGithubWorkflows (fun _ => .ok fun args => "go " ++ args.GoVersion ++ "\n")
        ["linter", "test"] ⟨"b", "app", emptySettings⟩ emptyWorld
      = .panicked ("no " ++ goVersion ++ " provided - please call WithGoVersion")
          emptyWorld)
    ∧ (∃ w', WithGithubWorkflows
          (fun _ => .ok fun args => "go " ++ args.GoVersion ++ "\n")
          ["linter", "test"]
          ⟨"b", "app", (emptySettings.insert goVersion (.str "1.23"))⟩ emptyWorld
        = .ok w'
      ∧ (∀ n ∈ ["linter", "test"], w' (wfOutPath n)
          = some ("# " ++ warning
              ++ ((fun (_ : Path) => TmplOutcome.ok fun args =>
                    "go " ++ args.GoVersion ++ "\n") (wfTplPath n)).renderOf
                  { GoVersion := "1.23" }))
      ∧ ((["linter", "test"] : List String).contains "linter" = true →
          w' ".golangci.toml"
            = some ("# " ++ warning
                ++ ((fun (_ : Path) => TmplOutcome.ok fun args =>
                      "go " ++ args.GoVersion ++ "\n") lintTplPath).renderOf {}))
      ∧ ((["linter", "test"] : List String).contains "linter" = false →
          w' ".golangci.toml" = emptyWorld ".golangci.toml")
      ∧ (∀ p, p ∉ ["linter", "test"].map wfOutPath → p ≠ ".golangci.toml" →
          w' p = emptyWorld p)
      ∧ (["linter", "test"].map wfOutPath).Nodup
      ∧ (["linter", "test"].map wfOutPath).length
          = (["linter", "test"] : List String).length) :=
  ⟨(c3_github_workflows (fun _ => .ok fun args => "go " ++ args.GoVersion ++ "\n")
      ⟨"b", "app", emptySettings⟩ emptyWorld ["linter", "test"]).1 rfl,
   (c3_github_workflows (fun _ => .ok fun args => "go " ++ args.GoVersion ++ "\n")
      ⟨"b", "app", (emptySettings.insert goVersion (.str "1.23"))⟩ emptyWorld
      ["linter", "test"]).2 "1.23" (by simp [Settings.insert])
      (by decide) (by decide) (fun n _ => rfl) (fun _ => rfl)⟩

/-! ## Pipeline characterization -/

theorem setupAll_fst (store : TemplateStore) (specs : List OpSpec) (s : Settings) :
    (setupAll store specs s).1 = buildSettings specs s := by
  induction specs generalizing s with
  | nil => rfl
  | cons sp rest ih =>
    cases sp <;> simp [setupAll, buildSettings, applyEager, eagerVal, constructOp,
      WithCGOEnabled, WithDependencies, WithGoVersion, ih]

theorem setupAll_snd (store : TemplateStore) (specs : List OpSpec) (s : Settings) :
    (setupAll store specs s).2 = specs.map (opOf store) := by
  induction specs generalizing s with
  | nil => rfl
  | cons sp rest ih =>
    cases sp <;> simp [setupAll, constructOp, opOf, WithCGOEnabled,
      WithDependencies, WithGoVersion, ih]

theorem runPipeline_eq (store : TemplateStore) (bn dir : String)
    (specs : List OpSpec) (w : World) :
    runPipeline store bn dir specs w
      = runOps ⟨bn, dir, buildSettings specs emptySettings⟩
          (specs.map (opOf store)) w := by
  show runOps ⟨bn, dir, (setupAll store specs emptySettings).1⟩
      (setupAll store specs emptySettings).2 w = _
  rw [setupAll_fst, setupAll_snd]

/-- The successful semantics of each operation: under its `specOk`
precondition it succeeds and performs exactly its `specWrites`. -/
theorem spec_sem_ok (store : TemplateStore) (d : AppData) (sp : OpSpec) (w : World)
    (h : specOk store d sp = true) :
    opOf store sp d w = .ok (specApply store d sp w) := by
  cases sp with
  | codeOwners l =>
    cases l with
    | nil => rfl
    | cons a as =>
      show OpResult.ok _ = _
      unfold specApply specWrites
      simp only [List.isEmpty_cons, applyWrites]
      rw [setFile_setFile, setFile_setFile]
  | cgo => rfl
  | deps l => rfl
  | gover v =>
    show (WithGoVersion v emptySettings).2 d w = _
    rw [withGoVersion_run]
    unfold specApply specWrites
    cases hgm : w goModFile with
    | none => rfl
    | some c => rfl
  | config =>
    simp only [specOk] at h
    show WithConfig store d w = _
    unfold WithConfig
    have h2 : (store (generateTemplateArgs.inputFileName
        { fileType := "go", outputName := "config.go", outputSubDir := d.dir,
          templateName := "config" ++ templateExts "go", templateSubDir := "",
          tmplArgs := { ConfigName := d.dir } })).isOk = true := h
    rw [generateTemplate_ok_of_isOk store _ w h2]
    rfl
  | packages l =>
    show WithPackages store l d w = _
    unfold WithPackages
    simp only [specOk, Bool.or_eq_true] at h
    by_cases hl : l.isEmpty
    · rw [List.isEmpty_iff.mp hl]
      rfl
    · have hstore : (store pkgTplPath).isOk = true := by
        rcases h with h | h
        · exact absurd h hl
        · exact h
      rw [runGenList_ok store _ w (by
        intro a ha
        rcases List.mem_map.mp ha with ⟨n, hn, rfl⟩
        exact hstore)]
      unfold specApply specWrites
      rw [List.map_map]
      rfl
  | workflows flows =>
    show WithGithubWorkflows store flows d w = _
    simp only [specOk, Bool.and_eq_true] at h
    obtain ⟨⟨hset, hflows⟩, hlin⟩ := h
    cases hver : d.settings goVersion with
    | none => rw [hver] at hset; simp at hset
    | some v =>
      cases v with
      | str ver =>
        have hflows' : ∀ n ∈ flows, (store (wfTplPath n)).isOk = true := by
          intro n hn
          have := List.all_eq_true.mp hflows n hn
          simpa using this
        unfold WithGithubWorkflows
        rw [hver]
        dsimp only
        rw [runGenList_ok store _ w (by
          intro a ha
          rcases List.mem_map.mp ha with ⟨n, hn, rfl⟩
          exact hflows' n hn)]
        dsimp only
        unfold specApply specWrites
        rw [applyWrites_append, List.map_map]
        have hgv : goVerStrOf d = ver := by
          unfold goVerStrOf
          rw [hver]
        cases hc : flows.contains "linter" with
        | true =>
          rw [if_pos rfl]
          have hlOk : (store (generateTemplateArgs.inputFileName
              { fileType := "toml", outputName := ".golangci.toml",
                outputSubDir := "", templateName := ".golangci.toml",
                templateSubDir := "", tmplArgs := {} })).isOk = true := by
            rw [hc] at hlin
            simpa using hlin
          rw [generateTemplate_ok_of_isOk store _ _ hlOk]
          rw [hgv]
          rfl
        | false =>
          simp only [Bool.false_eq_true, if_false]
          rw [hgv]
          rfl
      | boolean b => rw [hver] at hset; simp at hset
      | strList l2 => rw [hver] at hset; simp at hset
  | makefile exts =>
    show WithMakefile store exts d w = _
    simp only [specOk, Bool.and_eq_true] at h
    obtain ⟨⟨hcgo, hdeps⟩, hmk⟩ := h
    unfold WithMakefile
    have henv : (match d.settings cgoEnabled with
        | none => some ""
        | some (.boolean true) => some "CGO_ENABLED=1 "
        | some (.boolean false) => some ""
        | some _ => none) = some (buildEnvOf d) := by
      unfold buildEnvOf
      cases hx : d.settings cgoEnabled with
      | none => rfl
      | some v =>
        cases v with
        | boolean b => cases b <;> rfl
        | str s2 => rw [hx] at hcgo; simp at hcgo
        | strList l2 => rw [hx] at hcgo; simp at hcgo
    have hdep : (match d.settings dependencies with
        | none => some ""
        | some (.strList deps) => some (depsDirectives deps)
        | some _ => none) = some (depsStrOf d) := by
      unfold depsStrOf
      cases hx : d.settings dependencies with
      | none => rfl
      | some v =>
        cases v with
        | strList l2 => rfl
        | str s2 => rw [hx] at hdeps; simp at hdeps
        | boolean b => rw [hx] at hdeps; simp at hdeps
    rw [henv]
    dsimp only
    rw [hdep]
    dsimp only
    rw [runGenList_ok store _ w (by
      intro a ha
      rcases List.mem_map.mp ha with ⟨n, hn, rfl⟩
      rcases List.mem_singleton.mp hn with rfl
      exact hmk)]
    unfold specApply specWrites mkTmplArgsOf
    rfl

theorem runOps_fold_ok (store : TemplateStore) (d : AppData) (specs : List OpSpec)
    (w : World) (hok : ∀ sp ∈ specs, specOk store d sp = true) :
    runOps d (specs.map (opOf store)) w = .ok (runFold store d specs w) := by
  induction specs generalizing w with
  | nil => rfl
  | cons sp rest ih =>
    have hsem := spec_sem_ok store d sp w (hok sp (by simp))
    show runOps d (opOf store sp :: rest.map (opOf store)) w = _
    simp only [runOps, hsem]
    exact ih (specApply store d sp w) (fun s hs => hok s (by simp [hs]))

theorem specWrites_fst_sub (store : TemplateStore) (d : AppData) (gm : Option String)
    (sp : OpSpec) : ∀ p ∈ (specWrites store d gm sp).map Prod.fst,
      p ∈ writePaths d.dir sp := by
  intro p hp
  cases sp with
  | codeOwners l =>
    by_cases hl : l.isEmpty <;> simp [specWrites, writePaths, hl] at hp ⊢ <;>
      exact hp
  | packages l => simpa [specWrites, writePaths, List.map_map] using hp
  | cgo => simp [specWrites] at hp
  | config => simpa [specWrites, writePaths] using hp
  | deps l => simp [specWrites] at hp
  | workflows flows =>
    by_cases hc : flows.contains "linter" <;>
      simp [specWrites, writePaths, hc, List.map_map] at hp ⊢ <;> exact hp
  | gover v =>
    cases gm with
    | none => simp [specWrites] at hp
    | some c => simpa [specWrites, writePaths] using hp
  | makefile exts => simpa [specWrites, writePaths, mkfileNodes] using hp

theorem specWrites_gm_irrel (store : TemplateStore) (d : AppData)
    (gm gm' : Option String) (sp : OpSpec) (h : sp.isGover = false) :
    specWrites store d gm sp = specWrites store d gm' sp := by
  cases sp <;> first
    | rfl
    | simp [OpSpec.isGover] at h

theorem gmNext_id (sp : OpSpec) (g : Option String) (h : sp.isGover = false) :
    gmNext sp g = g := by
  cases sp <;> first
    | rfl
    | simp [OpSpec.isGover] at h

theorem pkgOutPath_ne_gomod (dir n : String) : pkgOutPath dir n ≠ goModFile := by
  unfold pkgOutPath
  by_cases hx : pathJoin dir n = ""
  · rw [hx]
    decide
  · rw [pathJoin_ne _ _ hx (by decide)]
    intro h
    have hlen := congrArg String.length h
    rw [String.length_append, String.length_append,
      show ("/" : String).length = 1 from rfl,
      show ("config.go" : String).length = 9 from rfl,
      show (goModFile : String).length = 6 from rfl] at hlen
    omega

theorem cfgOutPath_ne_gomod (dir : String) : cfgOutPath dir ≠ goModFile := by
  unfold cfgOutPath
  by_cases hx : dir = ""
  · rw [hx]
    decide
  · rw [pathJoin_ne _ _ hx (by decide)]
    intro h
    have hlen := congrArg String.length h
    rw [String.length_append, String.length_append,
      show ("/" : String).length = 1 from rfl,
      show ("config.go" : String).length = 9 from rfl,
      show (goModFile : String).length = 6 from rfl] at hlen
    omega

theorem wfOutPath_ne_gomod (n : String) : wfOutPath n ≠ goModFile := by
  intro h
  have hlen := congrArg String.length h
  rw [wfOutPath_eq, String.length_append, String.length_append,
    String.length_append,
    show (".github/workflows" : String).length = 17 from rfl,
    show ("/" : String).length = 1 from rfl,
    show (".yml" : String).length = 4 from rfl,
    show (goModFile : String).length = 6 from rfl] at hlen
  omega

theorem gomod_not_writePaths (dir : String) (sp : OpSpec) (h : sp.isGover = false) :
    goModFile ∉ writePaths dir sp := by
  cases sp with
  | codeOwners l =>
    by_cases hl : l.isEmpty <;> simp [writePaths, hl] <;> decide
  | packages l =>
    intro hm
    rcases List.mem_map.mp hm with ⟨n, _, hn⟩
    exact pkgOutPath_ne_gomod dir n hn
  | cgo => simp [writePaths]
  | config =>
    intro hm
    rcases List.mem_singleton.mp hm with hm2
    exact cfgOutPath_ne_gomod dir hm2.symm
  | deps l => simp [writePaths]
  | workflows flows =>
    intro hm
    rcases List.mem_append.mp hm with hm1 | hm2
    · rcases List.mem_map.mp hm1 with ⟨n, _, hn⟩
      exact wfOutPath_ne_gomod n hn
    · by_cases hc : flows.contains "linter" = true
      · rw [if_pos hc] at hm2
        exact absurd (List.mem_singleton.mp hm2) (by decide)
      · rw [if_neg hc] at hm2
        simp at hm2
  | gover v => simp [OpSpec.isGover] at h
  | makefile exts =>
    intro hm
    rcases List.mem_singleton.mp hm with hm2
    exact absurd hm2 (by decide)

theorem gm_applyWrites (store : TemplateStore) (d : AppData) (sp : OpSpec) (w : World) :
    applyWrites w (specWrites store d (w goModFile) sp) goModFile
      = gmNext sp (w goModFile) := by
  cases hgover : sp.isGover with
  | false =>
    rw [applyWrites_frame _ _ _
      (fun hm => gomod_not_writePaths d.dir sp hgover
        (specWrites_fst_sub store d (w goModFile) sp goModFile hm))]
    rw [gmNext_id sp _ hgover]
  | true =>
    cases sp <;> simp [OpSpec.isGover] at hgover
    rename_i v
    unfold specWrites gmNext
    cases hgm : w goModFile with
    | none => simp [applyWrites, hgm]
    | some c =>
      simp only [applyWrites, Option.map_some']
      exact setFile_same _ _ _

theorem find?_rev_none {L : List (Path × String)} {p : Path}
    (h : p ∉ L.map Prod.fst) :
    L.reverse.find? (fun pc => pc.1 = p) = none := by
  cases hf : L.reverse.find? (fun pc => pc.1 = p) with
  | none => rfl
  | some pc =>
    exfalso
    have hm : pc.1 = p := by simpa using List.find?_some hf
    have hmem : pc ∈ L := List.mem_reverse.mp (List.mem_of_find?_eq_some hf)
    exact h (List.mem_map.mpr ⟨pc, hmem, hm⟩)

theorem applyWrites_comm (w : World) (L1 L2 : List (Path × String))
    (h : Disj (L1.map Prod.fst) (L2.map Prod.fst)) :
    applyWrites (applyWrites w L1) L2 = applyWrites (applyWrites w L2) L1 := by
  funext p
  rw [applyWrites_eq (applyWrites w L1) L2 p, applyWrites_eq w L1 p,
    applyWrites_eq (applyWrites w L2) L1 p, applyWrites_eq w L2 p]
  by_cases hp1 : p ∈ L1.map Prod.fst
  · rw [find?_rev_none (h p hp1)]
  · rw [find?_rev_none hp1]

theorem gover_writePaths_mem (dir : String) (sp : OpSpec) (h : sp.isGover = true) :
    goModFile ∈ writePaths dir sp := by
  cases sp <;> simp [OpSpec.isGover] at h <;> simp [writePaths]

theorem specApply_comm (store : TemplateStore) (d : AppData) (s t : OpSpec) (w : World)
    (hd : Disj (writePaths d.dir s) (writePaths d.dir t)) :
    specApply store d s (specApply store d t w)
      = specApply store d t (specApply store d s w) := by
  have hdisj : ∀ (g1 g2 : Option String),
      Disj ((specWrites store d g1 t).map Prod.fst)
        ((specWrites store d g2 s).map Prod.fst) := by
    intro g1 g2 p hp1 hp2
    exact hd p (specWrites_fst_sub store d g2 s p hp2)
      (specWrites_fst_sub store d g1 t p hp1)
  by_cases hgs : s.isGover = true
  · by_cases hgt : t.isGover = true
    · exact absurd (gover_writePaths_mem d.dir t hgt)
        (hd goModFile (gover_writePaths_mem d.dir s hgs))
    · have hgt' : t.isGover = false := by
        cases hb : t.isGover
        · rfl
        · exact absurd hb hgt
      show applyWrites (specApply store d t w)
          (specWrites store d (specApply store d t w goModFile) s) = _
      have h1 : specApply store d t w goModFile = w goModFile := by
        unfold specApply
        rw [gm_applyWrites store d t w, gmNext_id t _ hgt']
      rw [h1]
      show applyWrites (applyWrites w (specWrites store d (w goModFile) t))
          (specWrites store d (w goModFile) s)
        = applyWrites (specApply store d s w)
            (specWrites store d (specApply store d s w goModFile) t)
      rw [specWrites_gm_irrel store d (specApply store d s w goModFile)
        (w goModFile) t hgt']
      show _ = applyWrites (applyWrites w (specWrites store d (w goModFile) s))
          (specWrites store d (w goModFile) t)
      exact applyWrites_comm w _ _ (hdisj _ _)
  · have hgs' : s.isGover = false := by
      cases hb : s.isGover
      · rfl
      · exact absurd hb hgs
    have h1 : specApply store d t w goModFile = gmNext t (w goModFile) := by
      unfold specApply
      exact gm_applyWrites store d t w
    show applyWrites (specApply store d t w)
        (specWrites store d (specApply store d t w goModFile) s) = _
    rw [specWrites_gm_irrel store d (specApply store d t w goModFile)
      (w goModFile) s hgs']
    have h2 : specApply store d s w goModFile = w goModFile := by
      unfold specApply
      rw [gm_applyWrites store d s w, gmNext_id s _ hgs']
    show applyWrites (applyWrites w (specWrites store d (w goModFile) t))
        (specWrites store d (w goModFile) s)
      = applyWrites (specApply store d s w)
          (specWrites store d (specApply store d s w goModFile) t)
    rw [h2]
    show _ = applyWrites (applyWrites w (specWrites store d (w goModFile) s))
        (specWrites store d (w goModFile) t)
    exact applyWrites_comm w _ _ (hdisj _ _)

theorem disj_symm {l1 l2 : List String} (h : Disj l1 l2) : Disj l2 l1 :=
  fun x hx2 hx1 => h x hx1 hx2

theorem Settings.insert_comm (s : Settings) (k1 : String) (v1 : SettingVal)
    (k2 : String) (v2 : SettingVal) (h : k1 ≠ k2) :
    (s.insert k1 v1).insert k2 v2 = (s.insert k2 v2).insert k1 v1 := by
  funext q
  by_cases h1 : q = k1
  · subst h1
    simp [Settings.insert, h]
  · by_cases h2 : q = k2 <;> simp [Settings.insert, h1, h2, Ne.symm h]

theorem applyEager_comm (sp tp : OpSpec) (s : Settings)
    (h : Disj (eagerKeys sp) (eagerKeys tp)) :
    applyEager sp (applyEager tp s) = applyEager tp (applyEager sp s) := by
  unfold applyEager
  cases hs : eagerVal sp with
  | none => rfl
  | some kv1 =>
    cases ht : eagerVal tp with
    | none => rfl
    | some kv2 =>
      have hmem1 : kv1.1 ∈ eagerKeys sp := by simp [eagerKeys, hs]
      have hne : kv1.1 ≠ kv2.1 := by
        intro he
        exact h kv1.1 hmem1 (by simp [eagerKeys, ht, he])
      exact Settings.insert_comm s kv2.1 kv2.2 kv1.1 kv1.2 (fun he => hne he.symm)

theorem buildSettings_perm {specs1 specs2 : List OpSpec} (hp : specs1.Perm specs2) :
    specs1.Pairwise (fun a b => Disj (eagerKeys a) (eagerKeys b)) →
    ∀ s, buildSettings specs1 s = buildSettings specs2 s := by
  induction hp with
  | nil => intro _ _; rfl
  | cons x hpl ih =>
    intro hk s
    exact ih hk.of_cons (applyEager x s)
  | swap x y l =>
    intro hk s
    show buildSettings l (applyEager x (applyEager y s))
      = buildSettings l (applyEager y (applyEager x s))
    rw [applyEager_comm x y _
      (disj_symm (List.rel_of_pairwise_cons hk (List.mem_cons_self x l)))]
  | trans h12 h23 ih1 ih2 =>
    intro hk s
    exact (ih1 hk s).trans
      (ih2 ((h12.pairwise_iff (fun hab => disj_symm hab)).mp hk) s)

theorem runFold_perm (store : TemplateStore) (d : AppData)
    {specs1 specs2 : List OpSpec} (hp : specs1.Perm specs2) :
    specs1.Pairwise (fun a b => Disj (writePaths d.dir a) (writePaths d.dir b)) →
    ∀ w, runFold store d specs1 w = runFold store d specs2 w := by
  induction hp with
  | nil => intro _ _; rfl
  | cons x hpl ih =>
    intro hk w
    exact ih hk.of_cons (specApply store d x w)
  | swap x y l =>
    intro hk w
    show runFold store d l (specApply store d x (specApply store d y w))
      = runFold store d l (specApply store d y (specApply store d x w))
    rw [specApply_comm store d x y w
      (disj_symm (List.rel_of_pairwise_cons hk (List.mem_cons_self x l)))]
  | trans h12 h23 ih1 ih2 =>
    intro hk w
    exact (ih1 hk w).trans
      (ih2 ((h12.pairwise_iff (fun hab => disj_symm hab)).mp hk) w)

/-- C2: the order-independence claim holds under the preconditions that make
it true of the source — the eager constructors touch pairwise-distinct
settings keys, the operations write pairwise-disjoint path sets, and every
operation succeeds against the settings bag the whole constructor list
builds.  Under those hypotheses the two pipelines (any permutation of the
same constructor calls) both succeed and leave the identical filesystem.
Without them the claim is false: `c2_counterexample` permutes a failing
list and the set of files written changes. -/
theorem c2_order_independence (store : TemplateStore) (bn dir : String)
    (specs1 specs2 : List OpSpec) (w : World)
    (hperm : specs1.Perm specs2)
    (hkeys : specs1.Pairwise (fun a b => Disj (eagerKeys a) (eagerKeys b)))
    (hpaths : specs1.Pairwise (fun a b => Disj (writePaths dir a) (writePaths dir b)))
    (hok : ∀ sp ∈ specs1,
      specOk store ⟨bn, dir, buildSettings specs1 emptySettings⟩ sp = true) :
    ∃ w', runPipeline store bn dir specs1 w = .ok w'
        ∧ runPipeline store bn dir specs2 w = .ok w' := by
  refine ⟨runFold store ⟨bn, dir, buildSettings specs1 emptySettings⟩ specs1 w,
    ?_, ?_⟩
  · rw [runPipeline_eq]
    exact runOps_fold_ok store _ specs1 w hok
  · rw [runPipeline_eq,
      (buildSettings_perm hperm hkeys emptySettings).symm,
      runOps_fold_ok store ⟨bn, dir, buildSettings specs1 emptySettings⟩ specs2 w
        (fun sp hs => hok sp (hperm.mem_iff.mpr hs)),
      runFold_perm store ⟨bn, dir, buildSettings specs1 emptySettings⟩
        hperm hpaths w]

theorem c2_order_independence_witness :
    ∃ w', runPipeline (fun _ => .ok fun args => "go " ++ args.GoVersion ++ "\n")
        "b" "app" [.gover "1.23", .workflows ["test"]] emptyWorld = .ok w'
      ∧ runPipeline (fun _ => .ok fun args => "go " ++ args.GoVersion ++ "\n")
        "b" "app" [.workflows ["test"], .gover "1.23"] emptyWorld = .ok w' :=
  c2_order_independence (fun _ => .ok fun args => "go " ++ args.GoVersion ++ "\n")
    "b" "app" [.gover "1.23", .workflows ["test"]]
    [.workflows ["test"], .gover "1.23"] emptyWorld
    (List.Perm.swap (OpSpec.workflows ["test"]) (OpSpec.gover "1.23") [])
    (by decide) (by decide) (by decide)

theorem c2_counterexample :
    (runPipeline (fun _ => .ok fun _ => "x") "b" "app"
        [.codeOwners ["alice"], .workflows ["test"]] emptyWorld).world
        codeOwnersFileName
      ≠ (runPipeline (fun _ => .ok fun _ => "x") "b" "app"
        [.workflows ["test"], .codeOwners ["alice"]] emptyWorld).world
        codeOwnersFileName := by
  decide

/-! ## Idempotence machinery (claim C7) -/

theorem fold_eq_applyWrites (store : TemplateStore) (d : AppData)
    (specs : List OpSpec) (w : World) :
    runFold store d specs w = applyWrites w (flatW store d specs (w goModFile)) := by
  induction specs generalizing w with
  | nil => rfl
  | cons sp rest ih =>
    show runFold store d rest (specApply store d sp w)
      = applyWrites w (specWrites store d (w goModFile) sp
          ++ flatW store d rest (gmNext sp (w goModFile)))
    rw [applyWrites_append, ih (specApply store d sp w),
      show specApply store d sp w goModFile = gmNext sp (w goModFile) from
        gm_applyWrites store d sp w]
    rfl

theorem fold_gm (store : TemplateStore) (d : AppData) (specs : List OpSpec)
    (w : World) :
    runFold store d specs w goModFile = gmChain specs (w goModFile) := by
  induction specs generalizing w with
  | nil => rfl
  | cons sp rest ih =>
    show runFold store d rest (specApply store d sp w) goModFile
      = gmChain rest (gmNext sp (w goModFile))
    rw [ih (specApply store d sp w),
      show specApply store d sp w goModFile = gmNext sp (w goModFile) from
        gm_applyWrites store d sp w]

theorem versionShapedB_sound (v : String) (h : versionShapedB v = true) :
    versionShaped v := by
  unfold versionShapedB at h
  rw [Bool.and_eq_true, decide_eq_true_eq] at h
  obtain ⟨hva, hrest⟩ := h
  cases hd : v.data.dropWhile isDigitCh with
  | nil =>
    rw [hd] at hrest
    exact absurd hrest (by decide)
  | cons c vb =>
    rw [hd] at hrest
    rw [Bool.and_eq_true, Bool.and_eq_true, decide_eq_true_eq,
      decide_eq_true_eq, List.all_eq_true] at hrest
    obtain ⟨⟨hc, hvb⟩, hall⟩ := hrest
    subst hc
    refine ⟨v.data.takeWhile isDigitCh, vb, ?_, hva,
      fun ch hch => List.mem_takeWhile_imp hch, hvb,
      fun ch hch => by simpa using hall ch hch⟩
    conv_lhs => rw [← List.takeWhile_append_dropWhile (p := isDigitCh) (l := v.data)]
    rw [hd]

theorem goversShaped_cons (sp : OpSpec) (rest : List OpSpec)
    (h : goversShaped (sp :: rest) = true) :
    (∀ v, sp = .gover v → versionShaped v) ∧ goversShaped rest = true := by
  unfold goversShaped at h
  rw [List.all_cons, Bool.and_eq_true] at h
  refine ⟨fun v hv => ?_, h.2⟩
  subst hv
  exact versionShapedB_sound v h.1

/-! ## General idempotence of the patcher (claim C7)

`ReplaceAll` with a plain `major.minor` version is idempotent on every
input: rerunning the patch (with any further version) rediscovers exactly
the structure the first run produced.  The development below proves
`patchList v (patchList u c) = patchList v c` for every `c` when `u` is a
digits-dot-digits version. -/

theorem rev_range_find?_some (p : Nat → Bool) (n k : Nat) (hk : k < n)
    (hp : p k = true) (hmax : ∀ j, k < j → j < n → p j = false) :
    (List.range n).reverse.find? p = some k := by
  induction n with
  | zero => exact absurd hk (Nat.not_lt_zero k)
  | succ m ih =>
    rw [List.range_succ, List.reverse_append, List.reverse_singleton]
    show List.find? p (m :: (List.range m).reverse) = some k
    by_cases hkm : k = m
    · subst hkm
      rw [List.find?_cons_of_pos _ hp]
    · have hkm2 : k < m := Nat.lt_of_le_of_ne (Nat.lt_succ_iff.mp hk) hkm
      rw [List.find?_cons_of_neg _ (by simp [hmax m hkm2 (Nat.lt_succ_self m)])]
      exact ih hkm2 (fun j hj1 hj2 => hmax j hj1 (Nat.lt_succ_of_lt hj2))

theorem rev_range_find?_props (p : Nat → Bool) (n k : Nat)
    (h : (List.range n).reverse.find? p = some k) :
    k < n ∧ p k = true ∧ ∀ j, k < j → j < n → p j = false := by
  induction n with
  | zero => simp [List.range_zero] at h
  | succ m ih =>
    rw [List.range_succ, List.reverse_append, List.reverse_singleton] at h
    replace h : List.find? p (m :: (List.range m).reverse) = some k := h
    cases hpm : p m with
    | true =>
      rw [List.find?_cons_of_pos _ hpm] at h
      have hk : m = k := Option.some_inj.mp h
      subst hk
      exact ⟨Nat.lt_succ_self m, hpm, fun j hj1 hj2 => absurd hj1 (by omega)⟩
    | false =>
      rw [List.find?_cons_of_neg _ (by simp [hpm])] at h
      obtain ⟨h1, h2, h3⟩ := ih h
      refine ⟨Nat.lt_succ_of_lt h1, h2, fun j hj1 hj2 => ?_⟩
      by_cases hjm : j = m
      · subst hjm
        exact hpm
      · exact h3 j hj1 (by omega)

theorem greedyEol_some_max (S : List Char) (k : Nat) (h : greedyEol S = some k) :
    k ≤ wsRun S ∧ eolAt (S.drop k) = true
      ∧ ∀ j, k < j → j ≤ wsRun S → eolAt (S.drop j) = false := by
  obtain ⟨h1, h2, h3⟩ := rev_range_find?_props _ _ _ h
  exact ⟨Nat.lt_succ_iff.mp h1, h2,
    fun j hj1 hj2 => h3 j hj1 (Nat.lt_succ_of_le hj2)⟩

theorem greedyEol_of_max (S : List Char) (k : Nat) (hk : k ≤ wsRun S)
    (he : eolAt (S.drop k) = true)
    (hmax : ∀ j, k < j → j ≤ wsRun S → eolAt (S.drop j) = false) :
    greedyEol S = some k :=
  rev_range_find?_some _ _ _ (Nat.lt_succ_of_le hk) he
    (fun j hj1 hj2 => hmax j hj1 (Nat.lt_succ_iff.mp hj2))

theorem wsRun_cons_ws (c : Char) (l : List Char) (h : isWsChar c = true) :
    wsRun (c :: l) = wsRun l + 1 := by
  simp [wsRun, List.takeWhile_cons, h]

theorem wsRun_cons_nonws (c : Char) (l : List Char) (h : isWsChar c = false) :
    wsRun (c :: l) = 0 := by
  simp [wsRun, List.takeWhile_cons, h]

theorem wsRun_all_append (Q X : List Char) (h : ∀ c ∈ Q, isWsChar c = true) :
    wsRun (Q ++ X) = Q.length + wsRun X := by
  unfold wsRun
  rw [takeWhile_append_all Q X h]
  simp

theorem wsRun_append_of_nonws (Q X : List Char)
    (h : ∃ z ∈ Q, isWsChar z = false) :
    wsRun (Q ++ X) = wsRun Q ∧ wsRun Q < Q.length := by
  induction Q with
  | nil => simp at h
  | cons a Q2 ih =>
    cases ha : isWsChar a with
    | false =>
      rw [List.cons_append, wsRun_cons_nonws _ _ ha, wsRun_cons_nonws _ _ ha]
      exact ⟨rfl, by simp⟩
    | true =>
      have h2 : ∃ z ∈ Q2, isWsChar z = false := by
        rcases h with ⟨z, hz, hzf⟩
        rcases List.mem_cons.mp hz with rfl | hz2
        · rw [ha] at hzf
          cases hzf
        · exact ⟨z, hz2, hzf⟩
      obtain ⟨e1, e2⟩ := ih h2
      rw [List.cons_append, wsRun_cons_ws _ _ ha, wsRun_cons_ws _ _ ha, e1]
      refine ⟨rfl, ?_⟩
      simp only [List.length_cons]
      omega

theorem wsRun_drop (S : List Char) (k : Nat) (h : k ≤ wsRun S) :
    wsRun (S.drop k) = wsRun S - k := by
  induction k generalizing S with
  | zero => simp
  | succ k2 ih =>
    cases S with
    | nil =>
      rw [show wsRun ([] : List Char) = 0 from rfl] at h
      omega
    | cons a S2 =>
      cases ha : isWsChar a with
      | false =>
        rw [wsRun_cons_nonws _ _ ha] at h
        omega
      | true =>
        rw [wsRun_cons_ws _ _ ha]
        show wsRun (S2.drop k2) = wsRun S2 + 1 - (k2 + 1)
        rw [ih S2 (by rw [wsRun_cons_ws _ _ ha] at h; omega)]
        omega

theorem digRun_cons_digit (c : Char) (l : List Char) (h : isDigitCh c = true) :
    digRun (c :: l) = digRun l + 1 := by
  simp [digRun, List.takeWhile_cons, h]

theorem digRun_cons_nondigit (c : Char) (l : List Char) (h : isDigitCh c = false) :
    digRun (c :: l) = 0 := by
  simp [digRun, List.takeWhile_cons, h]

theorem digRun_congr (Q Y Y2 : List Char) :
    digRun (Q ++ ('\n' :: Y)) = digRun (Q ++ ('\n' :: Y2)) := by
  induction Q with
  | nil =>
    rw [List.nil_append, List.nil_append,
      digRun_cons_nondigit _ _ (by decide), digRun_cons_nondigit _ _ (by decide)]
  | cons a Q2 ih =>
    cases ha : isDigitCh a with
    | true =>
      rw [List.cons_append, List.cons_append, digRun_cons_digit _ _ ha,
        digRun_cons_digit _ _ ha, ih]
    | false =>
      rw [List.cons_append, List.cons_append, digRun_cons_nondigit _ _ ha,
        digRun_cons_nondigit _ _ ha]

theorem digRun_nl_le (Q Y : List Char) : digRun (Q ++ ('\n' :: Y)) ≤ Q.length := by
  induction Q with
  | nil =>
    rw [List.nil_append, digRun_cons_nondigit _ _ (by decide)]
    exact Nat.le_refl 0
  | cons a Q2 ih =>
    cases ha : isDigitCh a with
    | true =>
      rw [List.cons_append, digRun_cons_digit _ _ ha]
      simp only [List.length_cons]
      omega
    | false =>
      rw [List.cons_append, digRun_cons_nondigit _ _ ha]
      simp

theorem eolAt_append_ne_nil (Q X : List Char) (h : Q ≠ []) :
    eolAt (Q ++ X) = eolAt Q := by
  cases Q with
  | nil => exact absurd rfl h
  | cons a t => rfl

theorem eol_drop_no_nl (S : List Char) (z : Char) (M : List Char)
    (hS : ∀ c ∈ S, c ≠ '\n') (hz : z ≠ '\n') :
    ∀ i, i ≤ S.length → eolAt ((S ++ (z :: M)).drop i) = false := by
  induction S with
  | nil =>
    intro i hi
    have h0 : i = 0 := Nat.le_zero.mp hi
    subst h0
    simp [eolAt, hz]
  | cons s S2 ih =>
    intro i hi
    cases i with
    | zero =>
      show eolAt (s :: (S2 ++ (z :: M))) = false
      simp [eolAt, hS s (by simp)]
    | succ i2 =>
      show eolAt ((S2 ++ (z :: M)).drop i2) = false
      exact ih (fun c hc => hS c (by simp [hc])) i2 (by simpa using hi)

theorem greedy_remOk (S : List Char) (k : Nat) (h : greedyEol S = some k) :
    remOk (S.drop k) := by
  obtain ⟨hk, he, hmax⟩ := greedyEol_some_max S k h
  refine ⟨he, fun j hj1 hj2 => ?_⟩
  rw [wsRun_drop S k hk] at hj2
  rw [List.drop_drop]
  exact hmax (k + j) (by omega) (by omega)

/-! Failure of each matcher stage depends only on the text up to (and
including) a line end: replacing what follows a common `'\n'` cannot turn a
failing stage into a success.  Any probe that would look past the boundary
would find the line end there and succeed, contradicting failure. -/

theorem greedyEol_congr_none (Q Y Y2 : List Char)
    (h : greedyEol (Q ++ ('\n' :: Y)) = none) :
    greedyEol (Q ++ ('\n' :: Y2)) = none := by
  by_cases hall : ∀ c ∈ Q, isWsChar c = true
  · exfalso
    have hws : wsRun (Q ++ ('\n' :: Y)) = Q.length + wsRun ('\n' :: Y) :=
      wsRun_all_append _ _ hall
    have he : eolAt ((Q ++ ('\n' :: Y)).drop Q.length) = true := by
      rw [List.drop_left]
      rfl
    have hmem : Q.length ∈ (List.range (wsRun (Q ++ ('\n' :: Y)) + 1)).reverse := by
      rw [List.mem_reverse, List.mem_range]
      have h1 : 1 ≤ wsRun ('\n' :: Y) := by
        rw [wsRun_cons_ws _ _ isWsChar_nl]
        omega
      omega
    unfold greedyEol at h
    exact (List.find?_eq_none.mp h _ hmem) he
  · have hex : ∃ z ∈ Q, isWsChar z = false := by
      by_contra hne
      apply hall
      intro c hc
      cases hic : isWsChar c with
      | true => rfl
      | false => exact absurd ⟨c, hc, hic⟩ hne
    obtain ⟨e1, e2⟩ := wsRun_append_of_nonws Q ('\n' :: Y) hex
    obtain ⟨e1b, _⟩ := wsRun_append_of_nonws Q ('\n' :: Y2) hex
    unfold greedyEol at h ⊢
    rw [e1b]
    rw [e1] at h
    rw [List.find?_eq_none] at h ⊢
    intro x hx
    have hxle : x ≤ wsRun Q := by
      rw [List.mem_reverse, List.mem_range] at hx
      omega
    have hxlt : x < Q.length := Nat.lt_of_le_of_lt hxle e2
    intro hpx
    have hQne : Q.drop x ≠ [] := by
      intro hemp
      have hl := congrArg List.length hemp
      simp only [List.length_drop, List.length_nil] at hl
      omega
    apply h x hx
    rw [List.drop_append_of_le_length (Nat.le_of_lt hxlt),
      eolAt_append_ne_nil _ _ hQne]
    rw [List.drop_append_of_le_length (Nat.le_of_lt hxlt),
      eolAt_append_ne_nil _ _ hQne] at hpx
    exact hpx

theorem matchPatch_congr_none (Q Y Y2 : List Char)
    (h : matchPatch (Q ++ ('\n' :: Y)) = none) :
    matchPatch (Q ++ ('\n' :: Y2)) = none := by
  cases Q with
  | nil =>
    show (if ('\n' : Char) = '.' then
        (if digRun Y2 = 0 then none
         else (greedyEol (Y2.drop (digRun Y2))).map fun k => 1 + digRun Y2 + k)
      else none) = none
    rw [if_neg (by decide)]
  | cons a Q2 =>
    replace h : (if a = '.' then
        (if digRun (Q2 ++ ('\n' :: Y)) = 0 then none
         else (greedyEol ((Q2 ++ ('\n' :: Y)).drop (digRun (Q2 ++ ('\n' :: Y))))).map
           fun k => 1 + digRun (Q2 ++ ('\n' :: Y)) + k)
      else none) = none := h
    show (if a = '.' then
        (if digRun (Q2 ++ ('\n' :: Y2)) = 0 then none
         else (greedyEol ((Q2 ++ ('\n' :: Y2)).drop (digRun (Q2 ++ ('\n' :: Y2))))).map
           fun k => 1 + digRun (Q2 ++ ('\n' :: Y2)) + k)
      else none) = none
    by_cases ha : a = '.'
    · rw [if_pos ha] at h ⊢
      have hd : digRun (Q2 ++ ('\n' :: Y2)) = digRun (Q2 ++ ('\n' :: Y)) :=
        (digRun_congr Q2 Y Y2).symm
      by_cases h0 : digRun (Q2 ++ ('\n' :: Y)) = 0
      · rw [if_pos (by rw [hd]; exact h0)]
      · rw [if_neg h0] at h
        rw [if_neg (by rw [hd]; exact h0), hd]
        have hdle := digRun_nl_le Q2 Y
        have hge : greedyEol
            (Q2.drop (digRun (Q2 ++ ('\n' :: Y))) ++ ('\n' :: Y)) = none := by
          cases hg : greedyEol
              ((Q2 ++ ('\n' :: Y)).drop (digRun (Q2 ++ ('\n' :: Y)))) with
          | none =>
            rw [← List.drop_append_of_le_length hdle]
            exact hg
          | some k =>
            rw [hg] at h
            exact Option.noConfusion h
        rw [List.drop_append_of_le_length hdle,
          greedyEol_congr_none _ Y Y2 hge]
        rfl
    · rw [if_neg ha]

theorem matchVer_congr_none (Q Y Y2 : List Char)
    (h : matchVer (Q ++ ('\n' :: Y)) = none) :
    matchVer (Q ++ ('\n' :: Y2)) = none := by
  unfold matchVer at h ⊢
  have hd : digRun (Q ++ ('\n' :: Y2)) = digRun (Q ++ ('\n' :: Y)) :=
    (digRun_congr Q Y Y2).symm
  by_cases h0 : digRun (Q ++ ('\n' :: Y)) = 0
  · rw [if_pos (by rw [hd]; exact h0)]
  · rw [if_neg h0] at h
    rw [if_neg (by rw [hd]; exact h0), hd]
    have hdle := digRun_nl_le Q Y
    rw [List.drop_append_of_le_length hdle] at h
    rw [List.drop_append_of_le_length hdle]
    have hmp : matchPatch
        (Q.drop (digRun (Q ++ ('\n' :: Y))) ++ ('\n' :: Y)) = none := by
      cases hm : matchPatch (Q.drop (digRun (Q ++ ('\n' :: Y))) ++ ('\n' :: Y)) with
      | none => rfl
      | some t =>
        rw [hm] at h
        exact Option.noConfusion h
    rw [hmp] at h
    have hge : greedyEol
        (Q.drop (digRun (Q ++ ('\n' :: Y))) ++ ('\n' :: Y)) = none := by
      cases hg : greedyEol (Q.drop (digRun (Q ++ ('\n' :: Y))) ++ ('\n' :: Y)) with
      | none => rfl
      | some k =>
        rw [hg] at h
        exact Option.noConfusion h
    rw [matchPatch_congr_none _ Y Y2 hmp, greedyEol_congr_none _ Y Y2 hge]
    rfl

theorem matchAfterGo_congr_none (Q Y Y2 : List Char)
    (h : matchAfterGo (Q ++ ('\n' :: Y)) = none) :
    matchAfterGo (Q ++ ('\n' :: Y2)) = none := by
  have hd : digRun (Q ++ ('\n' :: Y2)) = digRun (Q ++ ('\n' :: Y)) :=
    (digRun_congr Q Y Y2).symm
  by_cases h0 : digRun (Q ++ ('\n' :: Y)) = 0
  · unfold matchAfterGo
    rw [if_pos (by rw [hd]; exact h0)]
  · have hdle : digRun (Q ++ ('\n' :: Y)) ≤ Q.length := digRun_nl_le Q Y
    have hform : matchAfterGo (Q ++ ('\n' :: Y))
        = (match Q.drop (digRun (Q ++ ('\n' :: Y))) ++ ('\n' :: Y) with
          | [] => none
          | c :: l4 =>
            if c = '.' then (matchVer l4).map
              fun t => digRun (Q ++ ('\n' :: Y)) + 1 + t
            else none) := by
      unfold matchAfterGo
      rw [if_neg h0, List.drop_append_of_le_length hdle]
    have hform2 : matchAfterGo (Q ++ ('\n' :: Y2))
        = (match Q.drop (digRun (Q ++ ('\n' :: Y))) ++ ('\n' :: Y2) with
          | [] => none
          | c :: l4 =>
            if c = '.' then (matchVer l4).map
              fun t => digRun (Q ++ ('\n' :: Y2)) + 1 + t
            else none) := by
      unfold matchAfterGo
      rw [if_neg (by rw [hd]; exact h0), hd, List.drop_append_of_le_length hdle]
    rw [hform] at h
    rw [hform2]
    cases hQ : Q.drop (digRun (Q ++ ('\n' :: Y))) with
    | nil =>
      rw [hQ, List.nil_append] at h
      show (if ('\n' : Char) = '.' then (matchVer Y2).map
          fun t => digRun (Q ++ ('\n' :: Y2)) + 1 + t
        else none) = none
      rw [if_neg (by decide)]
    | cons b Q3 =>
      rw [hQ, List.cons_append] at h
      replace h : (if b = '.' then (matchVer (Q3 ++ ('\n' :: Y))).map
          (fun t => digRun (Q ++ ('\n' :: Y)) + 1 + t)
        else none) = none := h
      show (if b = '.' then (matchVer (Q3 ++ ('\n' :: Y2))).map
          (fun t => digRun (Q ++ ('\n' :: Y2)) + 1 + t)
        else none) = none
      by_cases hb : b = '.'
      · rw [if_pos hb] at h ⊢
        have hmv : matchVer (Q3 ++ ('\n' :: Y)) = none := by
          cases hm : matchVer (Q3 ++ ('\n' :: Y)) with
          | none => rfl
          | some t =>
            rw [hm] at h
            exact Option.noConfusion h
        rw [matchVer_congr_none Q3 Y Y2 hmv]
        rfl
      · rw [if_neg hb]

theorem matchAt_nl_eq (Y : List Char) :
    matchAt ('\n' :: Y)
      = if (Y.drop (wsRun Y)).take 3 = goLit
        then (matchAfterGo ((Y.drop (wsRun Y)).drop 3)).map
          fun t => wsRun ('\n' :: Y) + 3 + t
        else none := by
  unfold matchAt
  rw [if_pos (show eolAt ('\n' :: Y) = true from rfl)]
  rw [show ('\n' :: Y).drop (wsRun ('\n' :: Y)) = Y.drop (wsRun Y) from by
    rw [wsRun_cons_ws _ _ isWsChar_nl, List.drop_succ_cons]]

theorem take3_goLit_elim (Q Y : List Char) (hQ : Q ≠ [])
    (h : (Q ++ ('\n' :: Y)).take 3 = goLit) :
    3 ≤ Q.length ∧ Q.take 3 = goLit := by
  cases Q with
  | nil => exact absurd rfl hQ
  | cons a Q1 =>
    cases Q1 with
    | nil =>
      exfalso
      replace h : a :: '\n' :: Y.take 1 = goLit := h
      injection h with h1 h2
      injection h2 with h3 h4
      exact absurd h3 (by decide)
    | cons b Q2 =>
      cases Q2 with
      | nil =>
        exfalso
        replace h : a :: b :: '\n' :: Y.take 0 = goLit := h
        injection h with h1 h2
        injection h2 with h3 h4
        injection h4 with h5 h6
        exact absurd h5 (by decide)
      | cons c Q4 =>
        refine ⟨by simp only [List.length_cons]; omega, ?_⟩
        replace h : a :: b :: c :: (Q4 ++ ('\n' :: Y)).take 0 = goLit := h
        exact h

theorem matchAt_congr_none (P Y Y2 : List Char)
    (hY : (matchAt ('\n' :: Y)).isSome = true)
    (h : matchAt ('\n' :: (P ++ ('\n' :: Y))) = none) :
    matchAt ('\n' :: (P ++ ('\n' :: Y2))) = none := by
  by_cases hall : ∀ c ∈ P, isWsChar c = true
  · exfalso
    have hZ : (P ++ ('\n' :: Y)).drop (wsRun (P ++ ('\n' :: Y)))
        = Y.drop (wsRun Y) := by
      rw [wsRun_all_append _ _ hall, wsRun_cons_ws _ _ isWsChar_nl,
        drop_append_plus, List.drop_succ_cons]
    rw [matchAt_nl_eq (P ++ ('\n' :: Y)), hZ] at h
    rw [matchAt_nl_eq Y] at hY
    by_cases ht : (Y.drop (wsRun Y)).take 3 = goLit
    · rw [if_pos ht] at h hY
      cases hm : matchAfterGo ((Y.drop (wsRun Y)).drop 3) with
      | none =>
        rw [hm] at hY
        simp at hY
      | some t =>
        rw [hm] at h
        exact Option.noConfusion h
    · rw [if_neg ht] at hY
      simp at hY
  · have hex : ∃ z ∈ P, isWsChar z = false := by
      by_contra hne
      apply hall
      intro c hc
      cases hic : isWsChar c with
      | true => rfl
      | false => exact absurd ⟨c, hc, hic⟩ hne
    obtain ⟨e1, e2⟩ := wsRun_append_of_nonws P ('\n' :: Y) hex
    obtain ⟨e1b, _⟩ := wsRun_append_of_nonws P ('\n' :: Y2) hex
    have hQne : P.drop (wsRun P) ≠ [] := by
      intro hemp
      have hl := congrArg List.length hemp
      simp only [List.length_drop, List.length_nil] at hl
      omega
    have hsplit : (P ++ ('\n' :: Y)).drop (wsRun (P ++ ('\n' :: Y)))
        = P.drop (wsRun P) ++ ('\n' :: Y) := by
      rw [e1]
      exact List.drop_append_of_le_length (Nat.le_of_lt e2)
    have hsplit2 : (P ++ ('\n' :: Y2)).drop (wsRun (P ++ ('\n' :: Y2)))
        = P.drop (wsRun P) ++ ('\n' :: Y2) := by
      rw [e1b]
      exact List.drop_append_of_le_length (Nat.le_of_lt e2)
    rw [matchAt_nl_eq (P ++ ('\n' :: Y)), hsplit] at h
    rw [matchAt_nl_eq (P ++ ('\n' :: Y2)), hsplit2]
    by_cases ht : (P.drop (wsRun P) ++ ('\n' :: Y)).take 3 = goLit
    · rw [if_pos ht] at h
      obtain ⟨hlen3, htQ⟩ := take3_goLit_elim _ Y hQne ht
      have ht2 : (P.drop (wsRun P) ++ ('\n' :: Y2)).take 3 = goLit := by
        rw [List.take_append_of_le_length hlen3]
        exact htQ
      rw [if_pos ht2]
      rw [List.drop_append_of_le_length hlen3] at h
      rw [List.drop_append_of_le_length hlen3]
      have hmag : matchAfterGo
          ((P.drop (wsRun P)).drop 3 ++ ('\n' :: Y)) = none := by
        cases hm : matchAfterGo ((P.drop (wsRun P)).drop 3 ++ ('\n' :: Y)) with
        | none => rfl
        | some t =>
          rw [hm] at h
          exact Option.noConfusion h
      rw [matchAfterGo_congr_none _ Y Y2 hmag]
      rfl
    · have ht2 : ¬ (P.drop (wsRun P) ++ ('\n' :: Y2)).take 3 = goLit := by
        intro hcontra
        obtain ⟨hlen3, htQ⟩ := take3_goLit_elim _ Y2 hQne hcontra
        apply ht
        rw [List.take_append_of_le_length hlen3]
        exact htQ
      rw [if_neg ht2]

theorem matchAt_some_head (c : Char) (cs : List Char) (len : Nat)
    (h : matchAt (c :: cs) = some len) : c = '\n' := by
  by_contra hc
  rw [matchAt_not_nl c cs hc] at h
  exact Option.noConfusion h

/-- The patched text is the original, or shares with it the prefix before
the first match; both continue with a `'\n'` there (the match anchor and
the replacement both start with one). -/
theorem patch_decomp (u : List Char) :
    ∀ n cs, List.length cs ≤ n →
      patchList u cs = cs
      ∨ ∃ P Y Y2, cs = P ++ ('\n' :: Y) ∧ patchList u cs = P ++ ('\n' :: Y2)
          ∧ (matchAt ('\n' :: Y)).isSome = true := by
  intro n
  induction n with
  | zero =>
    intro cs hcs
    rw [List.length_eq_zero.mp (Nat.le_zero.mp hcs)]
    exact Or.inl rfl
  | succ m ih =>
    intro cs hcs
    cases cs with
    | nil => exact Or.inl rfl
    | cons c cs2 =>
      cases hm : matchAt (c :: cs2) with
      | some len =>
        have hc := matchAt_some_head c cs2 len hm
        subst hc
        refine Or.inr ⟨[], cs2,
          '\n' :: 'g' :: 'o' :: ' '
            :: ((u ++ ['\n']) ++ patchList u (('\n' :: cs2).drop len)),
          rfl, ?_, by rw [hm]; rfl⟩
        rw [patchList_match_step u _ len hm]
        rfl
      | none =>
        rcases ih cs2 (by simpa using hcs) with hfix | ⟨P, Y, Y2, he, hp, hs⟩
        · rw [patchList_cons_nomatch u c cs2 hm, hfix]
          exact Or.inl rfl
        · refine Or.inr ⟨c :: P, Y, Y2, by rw [he]; rfl, ?_, hs⟩
          rw [patchList_cons_nomatch u c cs2 hm, hp]
          rfl

/-- Patching the tail cannot create a match at a position where none was. -/
theorem matchAt_none_patch (u : List Char) (c : Char) (cs : List Char)
    (h : matchAt (c :: cs) = none) :
    matchAt (c :: patchList u cs) = none := by
  by_cases hc : c = '\n'
  · subst hc
    rcases patch_decomp u cs.length cs (Nat.le_refl _) with
      hfix | ⟨P, Y, Y2, he, hp, hs⟩
    · rw [hfix]
      exact h
    · rw [hp]
      rw [he] at h
      exact matchAt_congr_none P Y Y2 hs h
  · exact matchAt_not_nl c _ hc

/-! A successful match leaves a `remOk` remainder: the final greedy `\s*$`
stopped at a line end and could not go further. -/

theorem matchPatch_some_rem (l : List Char) (t : Nat)
    (h : matchPatch l = some t) : remOk (l.drop t) := by
  cases l with
  | nil => exact Option.noConfusion h
  | cons c l6 =>
    replace h : (if c = '.' then
        (if digRun l6 = 0 then none
         else (greedyEol (l6.drop (digRun l6))).map fun k => 1 + digRun l6 + k)
      else none) = some t := h
    by_cases hc : c = '.'
    · rw [if_pos hc] at h
      by_cases h0 : digRun l6 = 0
      · rw [if_pos h0] at h
        exact Option.noConfusion h
      · rw [if_neg h0] at h
        rcases Option.map_eq_some'.mp h with ⟨k, hk, ht⟩
        have hrem := greedy_remOk _ k hk
        have hdrop : (c :: l6).drop t = (l6.drop (digRun l6)).drop k := by
          rw [← ht,
            show (1 : Nat) + digRun l6 + k = (digRun l6 + k) + 1 from by omega]
          show l6.drop (digRun l6 + k) = (l6.drop (digRun l6)).drop k
          rw [List.drop_drop]
        rw [hdrop]
        exact hrem
    · rw [if_neg hc] at h
      exact Option.noConfusion h

theorem matchVer_some_rem (l : List Char) (t : Nat)
    (h : matchVer l = some t) : remOk (l.drop t) := by
  unfold matchVer at h
  by_cases h0 : digRun l = 0
  · rw [if_pos h0] at h
    exact Option.noConfusion h
  · rw [if_neg h0] at h
    cases hm : matchPatch (l.drop (digRun l)) with
    | some t2 =>
      rw [hm] at h
      replace h : some (digRun l + t2) = some t := h
      rw [← Option.some_inj.mp h, ← List.drop_drop]
      exact matchPatch_some_rem _ t2 hm
    | none =>
      rw [hm] at h
      replace h : (greedyEol (l.drop (digRun l))).map
          (fun k => digRun l + k) = some t := h
      rcases Option.map_eq_some'.mp h with ⟨k, hk, ht⟩
      rw [← ht, ← List.drop_drop]
      exact greedy_remOk _ k hk

theorem matchAfterGo_some_rem (l : List Char) (t : Nat)
    (h : matchAfterGo l = some t) : remOk (l.drop t) := by
  unfold matchAfterGo at h
  by_cases h0 : digRun l = 0
  · rw [if_pos h0] at h
    exact Option.noConfusion h
  · rw [if_neg h0] at h
    cases hQ : l.drop (digRun l) with
    | nil =>
      rw [hQ] at h
      exact Option.noConfusion h
    | cons c l4 =>
      rw [hQ] at h
      replace h : (if c = '.' then (matchVer l4).map
          (fun t2 => digRun l + 1 + t2)
        else none) = some t := h
      by_cases hc : c = '.'
      · rw [if_pos hc] at h
        rcases Option.map_eq_some'.mp h with ⟨t2, hmv, ht⟩
        have hstep : l.drop (digRun l + 1) = l4 := by
          rw [← List.drop_drop, hQ]
          rfl
        have hfin : l.drop t = l4.drop t2 := by
          rw [← ht,
            show digRun l + 1 + t2 = (digRun l + 1) + t2 from rfl,
            ← List.drop_drop, hstep]
        rw [hfin]
        exact matchVer_some_rem l4 t2 hmv
      · rw [if_neg hc] at h
        exact Option.noConfusion h

theorem matchAt_some_remOk (l : List Char) (len : Nat)
    (h : matchAt l = some len) : remOk (l.drop len) := by
  unfold matchAt at h
  by_cases he : eolAt l = true
  · rw [if_pos he] at h
    by_cases ht : (l.drop (wsRun l)).take 3 = goLit
    · rw [if_pos ht] at h
      rcases Option.map_eq_some'.mp h with ⟨t, hmag, hlen⟩
      have hfin : l.drop len = ((l.drop (wsRun l)).drop 3).drop t := by
        rw [← hlen, List.drop_drop, List.drop_drop, Nat.add_assoc]
      rw [hfin]
      exact matchAfterGo_some_rem _ t hmag
    · rw [if_neg ht] at h
      exact Option.noConfusion h
  · rw [if_neg he] at h
    exact Option.noConfusion h

theorem greedyEol_nl_block_head (rest : List Char) :
    greedyEol ('\n' :: '\n' :: '\n' :: 'g' :: rest) = some 2 := by
  have hws : wsRun ('\n' :: '\n' :: '\n' :: 'g' :: rest) = 3 := by
    rw [wsRun_cons_ws _ _ isWsChar_nl, wsRun_cons_ws _ _ isWsChar_nl,
      wsRun_cons_ws _ _ isWsChar_nl, wsRun_cons_nonws _ _ (by decide)]
  refine greedyEol_of_max _ 2 (by rw [hws]; omega) rfl ?_
  intro j hj1 hj2
  rw [hws] at hj2
  obtain rfl : j = 3 := by omega
  simp [eolAt]

theorem greedyEol_nl_nl_of_noeol (X : List Char)
    (hC : ∀ i, i ≤ wsRun X → eolAt (X.drop i) = false) :
    greedyEol ('\n' :: '\n' :: X) = some 1 := by
  have hws : wsRun ('\n' :: '\n' :: X) = wsRun X + 2 := by
    rw [wsRun_cons_ws _ _ isWsChar_nl, wsRun_cons_ws _ _ isWsChar_nl]
  refine greedyEol_of_max _ 1 (by rw [hws]; omega) rfl ?_
  intro j hj1 hj2
  rw [hws] at hj2
  obtain ⟨j2, rfl⟩ : ∃ j2, j = j2 + 2 := ⟨j - 2, by omega⟩
  show eolAt (X.drop j2) = false
  exact hC j2 (by omega)

/-- Patching preserves "no line end within or at the end of the leading
whitespace run" (the remainder invariant, shifted past its `'\n'`). -/
theorem eol_run_patch (u D1 : List Char)
    (hC : ∀ i, i ≤ wsRun D1 → eolAt (D1.drop i) = false) :
    ∀ i, i ≤ wsRun (patchList u D1) →
      eolAt ((patchList u D1).drop i) = false := by
  rcases patch_decomp u D1.length D1 (Nat.le_refl _) with
    hfix | ⟨P, Y, Y2, he, hp, _⟩
  · rw [hfix]
    exact hC
  · have hPgt : wsRun D1 < P.length := by
      by_contra hle
      have hfalse := hC P.length (by omega)
      rw [he, List.drop_left] at hfalse
      simp [eolAt] at hfalse
    have hz : ∃ z ∈ P, isWsChar z = false := by
      by_contra hne
      have hall : ∀ c ∈ P, isWsChar c = true := by
        intro c hc
        cases hic : isWsChar c with
        | true => rfl
        | false => exact absurd ⟨c, hc, hic⟩ hne
      have hws := wsRun_all_append P ('\n' :: Y) hall
      rw [← he] at hws
      omega
    obtain ⟨e1, e2⟩ := wsRun_append_of_nonws P ('\n' :: Y) hz
    obtain ⟨e1b, _⟩ := wsRun_append_of_nonws P ('\n' :: Y2) hz
    have hwr : wsRun D1 = wsRun P := by
      rw [he]
      exact e1
    intro i hi
    rw [hp, e1b] at hi
    rw [hp]
    have hilt : i < P.length := Nat.lt_of_le_of_lt hi e2
    have hne2 : P.drop i ≠ [] := by
      intro hemp
      have hl := congrArg List.length hemp
      simp only [List.length_drop, List.length_nil] at hl
      omega
    rw [List.drop_append_of_le_length (Nat.le_of_lt hilt),
      eolAt_append_ne_nil _ _ hne2]
    have hD1 := hC i (by omega)
    rw [he, List.drop_append_of_le_length (Nat.le_of_lt hilt),
      eolAt_append_ne_nil _ _ hne2] at hD1
    exact hD1

/-- The replacement block with one more leading `'\n'` (the anchor of the
match that consumed it), in the anchored shape. -/
theorem replaceFor_shape3 (va vb tailB : List Char) :
    '\n' :: (replaceFor (va ++ ('.' :: vb)) ++ tailB)
      = ('\n' :: '\n' :: ['\n'])
          ++ (goLit ++ (va ++ (('.' :: vb) ++ ('\n' :: tailB)))) := by
  simp [replaceFor, goLit]

/-- Joint induction: patching with a plain version commutes into a later
patch (`main`), and the rescan of a patched remainder consumes exactly up
to the block's interior newline (`aux`). -/
theorem patch_star_aux (ua ub : List Char)
    (hva : ua ≠ []) (hva2 : ∀ c ∈ ua, isDigitCh c = true)
    (hvb : ub ≠ []) (hvb2 : ∀ c ∈ ub, isDigitCh c = true)
    (v : List Char) :
    ∀ n : Nat,
      (∀ c : List Char, c.length ≤ n →
        patchList v (patchList (ua ++ ('.' :: ub)) c) = patchList v c)
      ∧ (∀ D : List Char, D.length ≤ n → remOk D →
        ∃ k, greedyEol ('\n' :: patchList (ua ++ ('.' :: ub)) D) = some k
          ∧ patchList v (('\n' :: patchList (ua ++ ('.' :: ub)) D).drop k)
              = patchList v D) := by
  have hT : ∀ (X : List Char) (ch : Char),
      ('\n' :: X).head? = some ch → isDigitCh ch = false ∧ ch ≠ '.' := by
    intro X ch hch
    rw [← Option.some_inj.mp hch]
    exact ⟨by decide, by decide⟩
  have hmid : ∀ ch ∈ (['\n'] : List Char), isWsChar ch = true := by decide
  have hmid0 : ∀ ch ∈ ([] : List Char), isWsChar ch = true := by
    intro ch hch
    exact absurd hch (List.not_mem_nil ch)
  intro n
  induction n with
  | zero =>
    constructor
    · intro c hc
      rw [List.length_eq_zero.mp (Nat.le_zero.mp hc)]
      rfl
    · intro D hD hrem
      rw [List.length_eq_zero.mp (Nat.le_zero.mp hD)]
      exact ⟨1, greedyEol_single, rfl⟩
  | succ m ih =>
    have main : ∀ c : List Char, c.length ≤ m + 1 →
        patchList v (patchList (ua ++ ('.' :: ub)) c) = patchList v c := by
      intro c hc
      cases c with
      | nil => rfl
      | cons ch cs =>
        cases hm : matchAt (ch :: cs) with
        | none =>
          rw [patchList_cons_nomatch (ua ++ ('.' :: ub)) ch cs hm,
            patchList_cons_nomatch v ch _
              (matchAt_none_patch (ua ++ ('.' :: ub)) ch cs hm),
            ih.1 cs (by simpa using hc),
            patchList_cons_nomatch v ch cs hm]
        | some len =>
          have hrem := matchAt_some_remOk _ len hm
          have hDlen : ((ch :: cs).drop len).length ≤ m := by
            have := matchAt_pos hm
            simp only [List.length_drop, List.length_cons] at hc ⊢
            omega
          obtain ⟨k, hg, hp⟩ := ih.2 _ hDlen hrem
          rw [patchList_match_step (ua ++ ('.' :: ub)) (ch :: cs) len hm,
            replaceFor_shape ua ub
              (patchList (ua ++ ('.' :: ub)) ((ch :: cs).drop len)),
            patchList_step v ['\n'] ua ub
              ('\n' :: patchList (ua ++ ('.' :: ub)) ((ch :: cs).drop len)) k
              hmid hva hva2 hvb hvb2 (hT _) hg,
            hp, ← patchList_match_step v (ch :: cs) len hm]
    refine ⟨main, ?_⟩
    intro D hD hrem
    cases D with
    | nil => exact ⟨1, greedyEol_single, rfl⟩
    | cons d0 D1 =>
      have hd0 : d0 = '\n' := of_decide_eq_true hrem.1
      subst hd0
      have hC : ∀ i, i ≤ wsRun D1 → eolAt (D1.drop i) = false := by
        intro i hi
        have h2 := hrem.2 (i + 1) (by omega)
          (by rw [wsRun_cons_ws _ _ isWsChar_nl]; omega)
        rw [List.drop_succ_cons] at h2
        exact h2
      cases hm : matchAt ('\n' :: D1) with
      | none =>
        refine ⟨1, ?_, ?_⟩
        · rw [patchList_cons_nomatch (ua ++ ('.' :: ub)) '\n' D1 hm]
          exact greedyEol_nl_nl_of_noeol _ (eol_run_patch (ua ++ ('.' :: ub)) D1 hC)
        · show patchList v (patchList (ua ++ ('.' :: ub)) ('\n' :: D1))
            = patchList v ('\n' :: D1)
          exact main _ hD
      | some len2 =>
        have hrem2 := matchAt_some_remOk _ len2 hm
        have hlen2 : (('\n' :: D1).drop len2).length ≤ m := by
          have := matchAt_pos hm
          simp only [List.length_drop, List.length_cons] at hD ⊢
          omega
        obtain ⟨k2, hg2, hp2⟩ := ih.2 _ hlen2 hrem2
        rw [patchList_match_step (ua ++ ('.' :: ub)) ('\n' :: D1) len2 hm,
          replaceFor_shape3 ua ub
            (patchList (ua ++ ('.' :: ub)) (('\n' :: D1).drop len2))]
        refine ⟨2, ?_, ?_⟩
        · show greedyEol ('\n' :: '\n' :: '\n' :: 'g' :: 'o' :: ' ' ::
            (ua ++ (('.' :: ub) ++
              ('\n' :: patchList (ua ++ ('.' :: ub)) (('\n' :: D1).drop len2)))))
            = some 2
          exact greedyEol_nl_block_head _
        · show patchList v (('\n' :: ([] : List Char)) ++ (goLit ++ (ua ++ (('.' :: ub) ++
            ('\n' :: patchList (ua ++ ('.' :: ub)) (('\n' :: D1).drop len2))))))
            = patchList v ('\n' :: D1)
          rw [patchList_step v [] ua ub
              ('\n' :: patchList (ua ++ ('.' :: ub)) (('\n' :: D1).drop len2)) k2
              hmid0 hva hva2 hvb hvb2 (hT _) hg2,
            hp2, ← patchList_match_step v ('\n' :: D1) len2 hm]

/-- Idempotence of `ReplaceAll` for plain versions, over every input:
a later patch run (with any version) sees through an earlier plain-version
patch. -/
theorem patch_star (ua ub : List Char)
    (hva : ua ≠ []) (hva2 : ∀ c ∈ ua, isDigitCh c = true)
    (hvb : ub ≠ []) (hvb2 : ∀ c ∈ ub, isDigitCh c = true)
    (v c : List Char) :
    patchList v (patchList (ua ++ ('.' :: ub)) c) = patchList v c :=
  (patch_star_aux ua ub hva hva2 hvb hvb2 v c.length).1 c (Nat.le_refl _)

theorem patchGoMod_star (u : String) (hu : versionShaped u) (c v : String) :
    patchGoMod (patchGoMod c u) v = patchGoMod c v := by
  obtain ⟨ua, ub, hue, hva, hva2, hvb, hvb2⟩ := hu
  show (⟨patchList v.toList (patchList u.toList c.toList)⟩ : String)
    = ⟨patchList v.toList c.toList⟩
  rw [show u.toList = u.data from rfl, hue]
  exact congrArg String.mk (patch_star ua ub hva hva2 hvb hvb2 v.toList c.toList)

theorem gmNext_none (sp : OpSpec) : gmNext sp none = none := by
  cases sp <;> rfl

theorem gmChain_none (specs : List OpSpec) : gmChain specs none = none := by
  induction specs with
  | nil => rfl
  | cons sp rest ih =>
    show gmChain rest (gmNext sp none) = none
    rw [gmNext_none sp]
    exact ih

/-- Chaining plain-version patches relates the final `go.mod` content to
the original: absent stays absent, and further patches of the final content
agree with further patches of the original. -/
theorem gmChain_rel (specs : List OpSpec) (hsh : goversShaped specs = true) :
    ∀ g : Option String,
      (g = none ∧ gmChain specs g = none)
      ∨ ∃ c c2, g = some c ∧ gmChain specs g = some c2
          ∧ ∀ v, patchGoMod c2 v = patchGoMod c v := by
  induction specs with
  | nil =>
    intro g
    cases g with
    | none => exact Or.inl ⟨rfl, rfl⟩
    | some c => exact Or.inr ⟨c, c, rfl, rfl, fun _ => rfl⟩
  | cons sp rest ih =>
    intro g
    obtain ⟨hsp, hrest⟩ := goversShaped_cons sp rest hsh
    show (g = none ∧ gmChain rest (gmNext sp g) = none)
      ∨ ∃ c c2, g = some c ∧ gmChain rest (gmNext sp g) = some c2
          ∧ ∀ v, patchGoMod c2 v = patchGoMod c v
    cases hgov : sp.isGover with
    | false =>
      rw [gmNext_id sp g hgov]
      exact ih hrest g
    | true =>
      cases sp <;> simp [OpSpec.isGover] at hgov
      case gover u =>
      cases g with
      | none =>
        refine Or.inl ⟨rfl, ?_⟩
        show gmChain rest none = none
        exact gmChain_none rest
      | some c =>
        rcases ih hrest (some (patchGoMod c u)) with ⟨h1, _⟩ | ⟨c1, c2, he1, he2, hrel2⟩
        · exact absurd h1 (by simp)
        · have hc1 : patchGoMod c u = c1 := Option.some_inj.mp he1
          refine Or.inr ⟨c, c2, rfl, ?_, ?_⟩
          · show gmChain rest (some (patchGoMod c u)) = some c2
            exact he2
          · intro w2
            rw [hrel2 w2, ← hc1]
            exact patchGoMod_star u (hsp u rfl) c w2

/-- Related `go.mod` contents produce identical flattened write lists. -/
theorem flatW_rel (store : TemplateStore) (d : AppData) (specs : List OpSpec)
    (hsh : goversShaped specs = true) :
    ∀ g g2 : Option String,
      ((g = none ∧ g2 = none)
        ∨ ∃ c c2, g = some c ∧ g2 = some c2
            ∧ ∀ v, patchGoMod c2 v = patchGoMod c v) →
      flatW store d specs g2 = flatW store d specs g := by
  induction specs with
  | nil =>
    intro g g2 _
    rfl
  | cons sp rest ih =>
    intro g g2 hrel
    obtain ⟨hsp, hrest⟩ := goversShaped_cons sp rest hsh
    show specWrites store d g2 sp ++ flatW store d rest (gmNext sp g2)
      = specWrites store d g sp ++ flatW store d rest (gmNext sp g)
    cases hgov : sp.isGover with
    | false =>
      rw [specWrites_gm_irrel store d g2 g sp hgov, gmNext_id sp g hgov,
        gmNext_id sp g2 hgov, ih hrest g g2 hrel]
    | true =>
      cases sp <;> simp [OpSpec.isGover] at hgov
      case gover u =>
      rcases hrel with ⟨hg, hg2⟩ | ⟨c, c2, hg, hg2, hrel2⟩
      · subst hg
        subst hg2
        rfl
      · subst hg
        subst hg2
        have hc : patchGoMod c2 u = patchGoMod c u := hrel2 u
        show ([(goModFile, patchGoMod c2 u)]
            ++ flatW store d rest (some (patchGoMod c2 u)))
          = [(goModFile, patchGoMod c u)]
            ++ flatW store d rest (some (patchGoMod c u))
        rw [hc]

/-- C7 (amended): running the pipeline twice with the same operation list
leaves, after the second run, exactly the filesystem the first run left —
every generated file, including the regex-patched `go.mod`, for every
starting filesystem and every pre-existing `go.mod` content or its absence —
provided each `WithGoVersion` argument is a plain `major.minor` version
string.  Template outputs depend only on the arguments and the settings
bag, and the plain-version patch is idempotent on every manifest
(`patch_star`).  Without the version-shape proviso the claim is false:
`c7_counterexample` re-patches a `go.mod` with a newline-carrying version
argument and the second run changes the file again. -/
theorem c7_idempotent_regeneration (store : TemplateStore) (bn dir : String)
    (specs : List OpSpec) (w : World)
    (hshaped : goversShaped specs = true)
    (hok : ∀ sp ∈ specs,
      specOk store ⟨bn, dir, buildSettings specs emptySettings⟩ sp = true) :
    ∃ w1, runPipeline store bn dir specs w = .ok w1
        ∧ runPipeline store bn dir specs w1 = .ok w1 := by
  refine ⟨runFold store ⟨bn, dir, buildSettings specs emptySettings⟩ specs w,
    ?_, ?_⟩
  · rw [runPipeline_eq]
    exact runOps_fold_ok store _ specs w hok
  · rw [runPipeline_eq,
      runOps_fold_ok store ⟨bn, dir, buildSettings specs emptySettings⟩ specs _ hok]
    congr 1
    rw [fold_eq_applyWrites store ⟨bn, dir, buildSettings specs emptySettings⟩ specs,
      fold_gm store ⟨bn, dir, buildSettings specs emptySettings⟩ specs w,
      flatW_rel store ⟨bn, dir, buildSettings specs emptySettings⟩ specs hshaped
        (w goModFile) (gmChain specs (w goModFile))
        (gmChain_rel specs hshaped (w goModFile)),
      fold_eq_applyWrites store ⟨bn, dir, buildSettings specs emptySettings⟩ specs w]
    exact applyWrites_absorb w _

theorem c7_idempotent_regeneration_witness :
    ∃ w1, runPipeline (fun _ => .ok fun _ => "x") "b" "app" [.gover "1.23"]
        (setFile emptyWorld goModFile "module m\ngo 1.0\n") = .ok w1
      ∧ runPipeline (fun _ => .ok fun _ => "x") "b" "app" [.gover "1.23"] w1
          = .ok w1 :=
  c7_idempotent_regeneration (fun _ => .ok fun _ => "x") "b" "app"
    [.gover "1.23"] (setFile emptyWorld goModFile "module m\ngo 1.0\n")
    (by decide) (by decide)

theorem c7_counterexample :
    (runPipeline (fun _ => .ok fun _ => "x") "b" "app"
        [.gover "1.1\ngo 9.9"]
        ((runPipeline (fun _ => .ok fun _ => "x") "b" "app"
          [.gover "1.1\ngo 9.9"]
          (setFile emptyWorld goModFile "module m\ngo 1.0\n")).world)).world
        goModFile
      ≠ (runPipeline (fun _ => .ok fun _ => "x") "b" "app"
          [.gover "1.1\ngo 9.9"]
          (setFile emptyWorld goModFile "module m\ngo 1.0\n")).world
          goModFile := by
  decide

end InstanceGen
